import Mathlib

/-!
# The worker of rtl-power-fftw (`src/datastore.cxx`)

A shallow embedding of `Datastore::Datastore` and of the worker `fft(Datastore&)`.

Modelling decisions, all visible in the definitions below:

* `Buffer*` handles are pairs of an address (`handle`) and the bytes stored there.
  Bytes are natural numbers (a `uint8_t` is one below 256); nothing below depends
  on the bound.
* `fft_datatype` (a floating-point type chosen in `datastore.h`) is an arbitrary
  type `P` with a zero, an addition and a multiplication, no laws assumed.
  The cells of `inbuf` hold `(byte - 127) * (±1)`, small integers that every
  floating-point type represents exactly, so `inbuf` is a list of pairs of integers.
* `FFTW(execute)(data.plan)` belongs to an external library.  It is a parameter
  `plan`: `plan inbuf i` is bin `i` of the transform of the input workspace.
* Indexing is checked: a read or write outside a buffer or workspace is the
  fault `outOfRange`.  Loops are driven by fuel; `outOfFuel` is a fault of its own.
* `N`, `buf_length` and `buffers` are sizes handed to allocations (`pwr(N)`,
  `Buffer(buf_length)`, `queue_histogram(buffers_+1, 0)`) and are natural numbers;
  `repeats` and `repeats_done` are `int64_t` and are integers.  The counters stay far
  from the wrap-around of their machine types: `fft_pointer ≤ N`,
  `buffer_pointer ≤ buffer.size() + 1`, `repeats_done ≤ max repeats 0`.
* `FFTW(alloc_complex)` leaves the workspaces uninitialised; the constructor of the
  model fills them with zeros.  The worker writes every cell of `inbuf` before a
  transform reads it, and the lemmas on the loops hold for any contents.
* The thread is a state machine whose steps are the stretches of `fft` between two
  operations on `status_mutex`; other threads act between two steps.
* The producer is not part of the sources.  It is modelled from the spec as a second
  party that pops an empty buffer, fills it with the lock released and pushes it, so
  that there are states in which the producer holds a buffer outside both queues.
* Rounding is not modelled.  The one place where a value of the transform is needed is
  the all-zero block, whose transform is zero in floating point too; there the plan is
  `fftw_forward`, the discrete Fourier transform in exact complex arithmetic, with `pwr`
  over the real numbers.  Where a claim orders the accumulators, `P` is any linearly
  ordered ring.
-/

set_option linter.dupNamespace false
set_option linter.unusedSectionVars false

namespace RtlPowerFftw

/-- A `Buffer` as the queues see it: the address of the object and its bytes. -/
structure Buffer where
  handle : Nat
  bytes : List Nat
  deriving DecidableEq

/-- The fields of `class Datastore` that `datastore.cxx` uses. -/
structure Datastore (P : Type) where
  N : Nat
  buffers : Nat
  repeats : Int
  repeats_done : Int
  queue_histogram : List Nat
  pwr : List P
  empty_buffers : List Buffer
  occupied_buffers : List Buffer
  acquisition_finished : Bool
  inbuf : List (Int × Int)
  outbuf : List (P × P)
  deriving DecidableEq

/-- Ways in which a run of the embedding stops without a result. -/
inductive Fault where
  | outOfRange
  | outOfFuel
  deriving DecidableEq

/-- Modelled from the spec: the member initialiser of `repeats_done` lives in
`datastore.h`, which is not part of the sources; the spec starts the counter at 0. -/
def repeats_done_init : Int := 0

/-- Modelled from the spec: the member initialiser of `acquisition_finished` lives
in `datastore.h`; the flag is raised later by the producer, so it starts false. -/
def acquisition_finished_init : Bool := false

/-- Modelled from the spec: `Buffer` is declared in `datastore.h`, which is not part of
the sources; the spec makes it a fixed-size sequence of bytes.  This is the object
`new Buffer(buf_length)` of round `i` of the constructor loop: a fresh address and
`buf_length` bytes (zero here; the worker only reads buffers a producer has filled). -/
def Buffer.new (i buf_length : Nat) : Buffer :=
  { handle := i, bytes := List.replicate buf_length 0 }

/-- Constructor, lines 22-33.  The loop of lines 26-27 pushes one new buffer per round. -/
def Datastore.Datastore {P : Type} [Zero P] (N_ buf_length : Nat) (repeats_ : Int)
    (buffers_ : Nat) : Datastore P :=
  { N := N_
    buffers := buffers_
    repeats := repeats_
    repeats_done := repeats_done_init
    queue_histogram := List.replicate (buffers_ + 1) 0
    pwr := List.replicate N_ 0
    empty_buffers :=
      (List.range buffers_).foldl (fun l i => l ++ [Buffer.new i buf_length]) []
    occupied_buffers := []
    acquisition_finished := acquisition_finished_init
    inbuf := List.replicate N_ (0, 0)
    outbuf := List.replicate N_ (0, 0) }

/-- Line 71: `(fft_pointer % 2 == 0 ? 1 : -1)`. -/
def multiplier (fft_pointer : Nat) : Int :=
  if fft_pointer % 2 = 0 then 1 else -1

/-- Lines 72-73: `(complex(re, im) - complex(127.0, 127.0)) * multiplier`. -/
def sample (fft_pointer re im : Nat) : Int × Int :=
  (((re : Int) - 127) * multiplier fft_pointer, ((im : Int) - 127) * multiplier fft_pointer)

/-- The function `std::norm`: squared magnitude of a complex number. -/
def norm {P : Type} [Add P] [Mul P] (z : P × P) : P :=
  z.1 * z.1 + z.2 * z.2

/-- What the worker thread carries from one buffer to the next: the datastore and
its local `fft_pointer` (line 50). -/
structure Worker (P : Type) where
  data : Datastore P
  fft_pointer : Nat
  deriving DecidableEq

/-- The worker while it drains one buffer: `buffer_pointer` (line 64) and, as a
ghost log, the indices of the buffer read so far, in the order they were read. -/
structure Drain (P : Type) extends Worker P where
  buffer_pointer : Nat
  reads : List Nat
  deriving DecidableEq

section Code

variable {P : Type} [Add P] [Mul P]

/-- Lines 79-81, `for (int i = 0; i < data.N; i++) data.pwr[i] += std::norm(data.outbuf[i])`,
entered at index `i` with `k` rounds to go. -/
def fft_accumulate (outbuf : List (P × P)) : Nat → Nat → List P → Except Fault (List P)
  | 0, _, pwr => .ok pwr
  | k + 1, i, pwr =>
    match pwr[i]?, outbuf[i]? with
    | some p, some z => fft_accumulate outbuf k (i + 1) (pwr.set i (p + norm z))
    | _, _ => .error .outOfRange

/-- Lines 77-84: when the input workspace is full, execute the plan, add the power of
each bin to `pwr`, count the repeat and rewind `fft_pointer`. -/
def fft_transform (plan : List (Int × Int) → Nat → P × P) (w : Worker P) :
    Except Fault (Worker P) :=
  if w.fft_pointer = w.data.N then
    let outbuf := (List.range w.data.N).map (plan w.data.inbuf)
    match fft_accumulate outbuf w.data.N 0 w.data.pwr with
    | .ok pwr =>
      .ok { data := { w.data with
                        outbuf := outbuf
                        pwr := pwr
                        repeats_done := w.data.repeats_done + 1 }
            fft_pointer := 0 }
    | .error e => .error e
  else .ok w

/-- Lines 66-76, the inner `while`: convert byte pairs into the input workspace until
it is full or the buffer is used up. -/
def fft_inner (buffer : List Nat) : Nat → Drain P → Except Fault (Drain P)
  | 0, _ => .error .outOfFuel
  | fuel + 1, dr =>
    if dr.fft_pointer < dr.data.N ∧ dr.buffer_pointer < buffer.length then
      match buffer[dr.buffer_pointer]?, buffer[dr.buffer_pointer + 1]? with
      | some re, some im =>
        if dr.fft_pointer < dr.data.inbuf.length then
          fft_inner buffer fuel
            { data := { dr.data with
                          inbuf := dr.data.inbuf.set dr.fft_pointer
                            (sample dr.fft_pointer re im) }
              fft_pointer := dr.fft_pointer + 1
              buffer_pointer := dr.buffer_pointer + 2
              reads := dr.reads ++ [dr.buffer_pointer, dr.buffer_pointer + 1] }
        else .error .outOfRange
      | _, _ => .error .outOfRange
    else .ok dr

/-- Lines 65-85, the outer `while`: alternate the inner loop and the transform while
bytes remain and `repeats_done < repeats`. -/
def fft_outer (plan : List (Int × Int) → Nat → P × P) (buffer : List Nat) :
    Nat → Drain P → Except Fault (Drain P)
  | 0, _ => .error .outOfFuel
  | fuel + 1, dr =>
    if dr.buffer_pointer < buffer.length ∧ dr.data.repeats_done < dr.data.repeats then
      match fft_inner buffer fuel dr with
      | .ok dr1 =>
        match fft_transform plan dr1.toWorker with
        | .ok w => fft_outer plan buffer fuel { dr1 with toWorker := w }
        | .error e => .error e
      | .error e => .error e
    else .ok dr

/-- Lines 64-85 for one buffer: `buffer_pointer` starts at 0.  The fuel covers every
buffer when `N ≥ 1` (`fft_drain_eq`). -/
def fft_drain (plan : List (Int × Int) → Nat → P × P) (buffer : List Nat) (w : Worker P) :
    Except Fault (Drain P) :=
  fft_outer plan buffer (buffer.length + 2)
    { toWorker := w, buffer_pointer := 0, reads := [] }

/-- Where the worker thread stands in the body of `while (true)`. -/
inductive Phase where
  /-- At lines 53-59: holding the lock, looking at the occupied queue. -/
  | waiting
  /-- At lines 63-85: the popped buffer is being drained, the lock is released. -/
  | draining (buffer : Buffer)
  /-- At lines 87-90: the drained buffer is about to be pushed to the empty pool. -/
  | recycling (buffer : Buffer)
  /-- After the `break` of line 58. -/
  | done
  deriving DecidableEq

/-- The worker thread: the datastore, `fft_pointer` and the place in the loop body.
`drained` is a ghost log of the buffers whose drain is complete, oldest first. -/
structure Thread (P : Type) extends Worker P where
  phase : Phase
  drained : List Buffer
  deriving DecidableEq

/-- The thread when `fft(data)` is entered: `fft_pointer = 0` (line 50), top of the loop. -/
def Thread.start (d : Datastore P) : Thread P :=
  { data := d, fft_pointer := 0, phase := .waiting, drained := [] }

/-- One atomic step of the worker.
* `waiting`, lines 53-62: with an empty occupied queue the worker leaves the loop if
  `acquisition_finished` is set and goes on waiting otherwise; with a non-empty queue it
  pops the front buffer.
* `draining`, lines 63-85: the buffer is drained with the lock released.
* `recycling`, lines 87-90: the buffer is pushed to the back of the empty pool. -/
def fft_step (plan : List (Int × Int) → Nat → P × P) (t : Thread P) : Except Fault (Thread P) :=
  match t.phase with
  | .waiting =>
    match t.data.occupied_buffers with
    | [] => if t.data.acquisition_finished then .ok { t with phase := .done } else .ok t
    | buffer :: rest =>
      .ok { t with data := { t.data with occupied_buffers := rest }, phase := .draining buffer }
  | .draining buffer =>
    match fft_drain plan buffer.bytes t.toWorker with
    | .ok dr =>
      .ok { toWorker := dr.toWorker, phase := .recycling buffer,
            drained := t.drained ++ [buffer] }
    | .error e => .error e
  | .recycling buffer =>
    .ok { t with data := { t.data with empty_buffers := t.data.empty_buffers ++ [buffer] },
                 phase := .waiting }
  | .done => .ok t

/-- One pass through the body of `while (true)`, lines 53-90, for a worker that finds a
buffer: pop, drain, recycle. -/
def fft_iteration (plan : List (Int × Int) → Nat → P × P) (t : Thread P) :
    Except Fault (Thread P) :=
  match fft_step plan t with
  | .ok t1 =>
    match fft_step plan t1 with
    | .ok t2 => fft_step plan t2
    | .error e => .error e
  | .error e => .error e

/-- The whole of `fft(data)` when nobody else touches the datastore: steps are taken
until the worker has left the loop.  A worker that waits for a producer that never
comes uses up any fuel. -/
def fft (plan : List (Int × Int) → Nat → P × P) : Nat → Thread P → Except Fault (Thread P)
  | 0, _ => .error .outOfFuel
  | fuel + 1, t =>
    if t.phase = .done then .ok t
    else
      match fft_step plan t with
      | .ok t1 => fft plan fuel t1
      | .error e => .error e

/-- Lines 64-85 applied to the buffers the worker takes, in the order it takes them.
The result is the worker after the last buffer and the read log of every buffer. -/
def fft_buffers (plan : List (Int × Int) → Nat → P × P) :
    List (List Nat) → Worker P → Except Fault (Worker P × List (List Nat))
  | [], w => .ok (w, [])
  | buffer :: rest, w =>
    match fft_drain plan buffer w with
    | .ok dr =>
      match fft_buffers plan rest dr.toWorker with
      | .ok (w1, logs) => .ok (w1, dr.reads :: logs)
      | .error e => .error e
    | .error e => .error e

/-- One round of the outer loop (inner loop, transform) followed by the rest of the
outer loop; the two loops get their own fuel here. -/
def fft_round (plan : List (Int × Int) → Nat → P × P) (buffer : List Nat)
    (fuelI fuelO : Nat) (dr : Drain P) : Except Fault (Drain P) :=
  match fft_inner buffer fuelI dr with
  | .ok dr1 =>
    match fft_transform plan dr1.toWorker with
    | .ok w => fft_outer plan buffer fuelO { dr1 with toWorker := w }
    | .error e => .error e
  | .error e => .error e

end Code

/-! ## The worker seen from the sample stream

Closed forms of the loops above, used to reason about them: what one byte pair does
to the worker, and what a list of pairs does. -/

section Stream

variable {P : Type} [Add P] [Mul P]

/-- The byte pairs (in-phase, quadrature) of a buffer, in order. -/
def pairs : List Nat → List (Nat × Nat)
  | re :: im :: rest => (re, im) :: pairs rest
  | _ => []

/-- Effect of one round of the inner loop on the worker: the converted pair is
written at `fft_pointer`, which moves on by one. -/
def store (w : Worker P) (s : Nat × Nat) : Worker P :=
  { data := { w.data with
                inbuf := w.data.inbuf.set w.fft_pointer (sample w.fft_pointer s.1 s.2) }
    fft_pointer := w.fft_pointer + 1 }

/-- Effect of lines 77-84 when no index is out of range. -/
def transformed (plan : List (Int × Int) → Nat → P × P) (w : Worker P) : Worker P :=
  if w.fft_pointer = w.data.N then
    { data := { w.data with
                  outbuf := (List.range w.data.N).map (plan w.data.inbuf)
                  pwr := List.zipWith (fun p z => p + norm z) w.data.pwr
                    ((List.range w.data.N).map (plan w.data.inbuf))
                  repeats_done := w.data.repeats_done + 1 }
      fft_pointer := 0 }
  else w

/-- One pair offered to the worker: taken while `repeats_done < repeats`, ignored after. -/
def consume (plan : List (Int × Int) → Nat → P × P) (w : Worker P) (s : Nat × Nat) :
    Worker P :=
  if w.data.repeats_done < w.data.repeats then transformed plan (store w s) else w

/-- A list of pairs offered to the worker one after the other. -/
def feed (plan : List (Int × Int) → Nat → P × P) (w : Worker P) (ps : List (Nat × Nat)) :
    Worker P :=
  ps.foldl (consume plan) w

/-- How many pairs of `ps` the worker takes before `repeats_done` reaches `repeats`. -/
def consumed (plan : List (Int × Int) → Nat → P × P) : Worker P → List (Nat × Nat) → Nat
  | _, [] => 0
  | w, s :: ps =>
    if w.data.repeats_done < w.data.repeats then consumed plan (consume plan w s) ps + 1
    else 0

/-- The worker between two buffers: the fill index is inside the workspace and the
workspaces have the size the constructor gave them. -/
structure Worker.WF (w : Worker P) : Prop where
  fp_lt : w.fft_pointer < w.data.N
  inbuf_len : w.data.inbuf.length = w.data.N
  pwr_len : w.data.pwr.length = w.data.N

/-- Closed form of the state in which the outer loop leaves a drain. -/
def Drain.after (plan : List (Int × Int) → Nat → P × P) (buffer : List Nat) (dr : Drain P) :
    Drain P :=
  { toWorker := feed plan dr.toWorker (pairs (buffer.drop dr.buffer_pointer))
    buffer_pointer := dr.buffer_pointer +
      2 * consumed plan dr.toWorker (pairs (buffer.drop dr.buffer_pointer))
    reads := dr.reads ++ List.range' dr.buffer_pointer
      (2 * consumed plan dr.toWorker (pairs (buffer.drop dr.buffer_pointer))) }

/-- How many pairs the worker still takes before `repeats_done` reaches `repeats`: the
transforms still to do times `N`, less the pairs already in the input workspace. -/
def pairs_wanted (w : Worker P) : Nat :=
  (w.data.repeats - w.data.repeats_done).toNat * w.data.N - w.fft_pointer

/-- The read logs the closed form predicts for a sequence of buffers. -/
def readLogs (plan : List (Int × Int) → Nat → P × P) : Worker P → List (List Nat) → List (List Nat)
  | _, [] => []
  | w, buffer :: rest =>
    List.range (2 * consumed plan w (pairs buffer)) ::
      readLogs plan (feed plan w (pairs buffer)) rest

/-- The `k`-th block of the sample stream `S` as the transform receives it: the pairs at
positions `k * N`, ..., `k * N + N - 1`, each converted with its place in the block as
fill index. -/
def block (N : Nat) (S : List (Nat × Nat)) (k : Nat) : List (Int × Int) :=
  ((S.drop (k * N)).take N).mapIdx (fun j s => sample j s.1 s.2)

/-- The running sum, over the first `n` blocks of the stream, of the squared magnitude of
bin `i` of the transform of the block, added up in the order of the blocks from 0. -/
def powerSum [Zero P] (plan : List (Int × Int) → Nat → P × P) (N : Nat) (S : List (Nat × Nat))
    (i n : Nat) : P :=
  (List.range n).foldl (fun acc k => acc + norm (plan (block N S k) i)) 0

/-- The worker has taken its pairs from the stream `S` in order: `n` blocks are
transformed and summed in `pwr`, and the input workspace holds the start of block `n`. -/
structure Tracks [Zero P] (plan : List (Int × Int) → Nat → P × P) (S : List (Nat × Nat))
    (w : Worker P) (n : Nat) : Prop where
  wf : w.WF
  rd_eq : w.data.repeats_done = (n : Int)
  inside : n * w.data.N + w.fft_pointer ≤ S.length
  inbuf_eq : ∀ j, j < w.fft_pointer → w.data.inbuf[j]? = (block w.data.N S n)[j]?
  pwr_eq : ∀ i, i < w.data.N → w.data.pwr[i]? = some (powerSum plan w.data.N S i n)

/-- The cells of the input workspace from the fill index on are left over from earlier
writes: after `n ≥ 1` transforms they still hold the end of block `n - 1`, and before the
first transform they hold their initial values `init`. -/
structure Retains (S : List (Nat × Nat)) (init : List (Int × Int)) (w : Worker P) (n : Nat) :
    Prop where
  prev : ∀ j, w.fft_pointer ≤ j → j < w.data.N → 1 ≤ n →
    w.data.inbuf[j]? = (block w.data.N S (n - 1))[j]?
  first : ∀ j, w.fft_pointer ≤ j → j < w.data.N → n = 0 → w.data.inbuf[j]? = init[j]?

end Stream

/-! ## The other threads -/

section Environment

variable {P : Type} [Add P] [Mul P]

/-- The fields another thread may write: the two queues and the flag, all guarded by
`status_mutex`. -/
def shared_write (d : Datastore P) (empty occupied : List Buffer) (finished : Bool) :
    Datastore P :=
  { d with empty_buffers := empty, occupied_buffers := occupied,
           acquisition_finished := finished }

/-- The states of the worker thread of a datastore built by the constructor, whatever the
other threads do to the queues and the flag between two of its steps. -/
inductive WorkerReach [Zero P] (plan : List (Int × Int) → Nat → P × P) (N buf_length : Nat)
    (repeats : Int) (buffers : Nat) : Thread P → Prop
  | start : WorkerReach plan N buf_length repeats buffers
      (Thread.start (Datastore.Datastore N buf_length repeats buffers))
  | step {t t1 : Thread P} : WorkerReach plan N buf_length repeats buffers t →
      fft_step plan t = .ok t1 → WorkerReach plan N buf_length repeats buffers t1
  | shared {t : Thread P} (empty occupied : List Buffer) (finished : Bool) :
      WorkerReach plan N buf_length repeats buffers t →
      WorkerReach plan N buf_length repeats buffers
        { t with data := shared_write t.data empty occupied finished }

/-- Modelled from the spec: the producer is an external collaborator and not part of the
sources.  First part of the producer contract of section 4.2, done under the lock: pop the
front of the empty pool.  With an empty pool the producer blocks and there is no step. -/
def producer_pop (d : Datastore P) : Option (Buffer × Datastore P) :=
  match d.empty_buffers with
  | [] => none
  | buffer :: rest => some (buffer, { d with empty_buffers := rest })

/-- Modelled from the spec: the producer, not part of the sources, fills the buffer it has
popped with raw bytes; the lock is released meanwhile (section 5). -/
def producer_fill (bytes : List Nat) (buffer : Buffer) : Buffer :=
  { buffer with bytes := bytes }

/-- Modelled from the spec: last part of the producer contract of section 4.2, not part of
the sources, done under the lock: push the filled buffer to the back of the occupied
queue. -/
def producer_push (buffer : Buffer) (d : Datastore P) : Datastore P :=
  { d with occupied_buffers := d.occupied_buffers ++ [buffer] }

/-- Modelled from the spec: the producer, not part of the sources, sets
`acquisition_finished` once no further buffer will be produced. -/
def producer_finish (d : Datastore P) : Datastore P :=
  { d with acquisition_finished := true }

/-- Modelled from the spec: the worker thread together with the one producer, which is not
part of the sources.  `filling` is the buffer the producer has popped from the empty pool
and not yet pushed to the occupied queue, if any. -/
structure System (P : Type) where
  thread : Thread P
  filling : Option Buffer

/-- Modelled from the spec: the system when the worker is started on a constructed
datastore; the producer, not part of the sources, holds no buffer yet. -/
def System.start (d : Datastore P) : System P :=
  { thread := Thread.start d, filling := none }

/-- One step of the system: a worker step; the producer pops an empty buffer, fills the
buffer it holds, or pushes it; the producer ends the acquisition.  Each step is one
critical section of `status_mutex`, or work done with the lock released. -/
inductive Step (plan : List (Int × Int) → Nat → P × P) : System P → System P → Prop
  | worker {s : System P} {t1 : Thread P} :
      fft_step plan s.thread = .ok t1 → Step plan s { s with thread := t1 }
  | pop {s : System P} {buffer : Buffer} {d : Datastore P} :
      s.filling = none → producer_pop s.thread.data = some (buffer, d) →
      Step plan s { thread := { s.thread with data := d }, filling := some buffer }
  | fill {s : System P} {buffer : Buffer} (bytes : List Nat) :
      s.filling = some buffer →
      Step plan s { s with filling := some (producer_fill bytes buffer) }
  | push {s : System P} {buffer : Buffer} :
      s.filling = some buffer →
      Step plan s { thread := { s.thread with data := producer_push buffer s.thread.data },
                    filling := none }
  | finish {s : System P} :
      Step plan s { s with thread := { s.thread with data := producer_finish s.thread.data } }

/-- The states of the system that can be reached from a constructed datastore. -/
inductive Reachable [Zero P] (plan : List (Int × Int) → Nat → P × P) (N buf_length : Nat)
    (repeats : Int) (buffers : Nat) : System P → Prop
  | start : Reachable plan N buf_length repeats buffers
      (System.start (Datastore.Datastore N buf_length repeats buffers))
  | step {s s1 : System P} : Reachable plan N buf_length repeats buffers s →
      Step plan s s1 → Reachable plan N buf_length repeats buffers s1

/-- The buffer the worker holds outside the two queues, if any. -/
def Phase.held : Phase → List Buffer
  | .draining buffer => [buffer]
  | .recycling buffer => [buffer]
  | _ => []

/-- The handles of the buffers in the empty pool, in the occupied queue and with the
worker. -/
def Thread.handles (t : Thread P) : List Nat :=
  (t.data.empty_buffers ++ t.data.occupied_buffers ++ t.phase.held).map Buffer.handle

/-- The buffer the producer holds outside the two queues, if any. -/
def System.held (s : System P) : List Buffer :=
  s.filling.toList

/-- The handles of all buffers of the system: empty pool, occupied queue, worker,
producer. -/
def System.handles (s : System P) : List Nat :=
  s.thread.handles ++ s.held.map Buffer.handle

/-- The worker with the queues and the flag as another state of the lock leaves them. -/
def Worker.withQueues (w : Worker P) (empty occupied : List Buffer) (finished : Bool) :
    Worker P :=
  { data := shared_write w.data empty occupied finished, fft_pointer := w.fft_pointer }

/-- What lines 64-85 leave alone and how they move `repeats_done`: the configuration, the
histogram, the queues and the flag are untouched, `repeats_done` does not decrease and
does not pass `repeats`. -/
structure DrainFrame (d d1 : Datastore P) : Prop where
  N : d1.N = d.N
  buffers : d1.buffers = d.buffers
  repeats : d1.repeats = d.repeats
  queue_histogram : d1.queue_histogram = d.queue_histogram
  empty_buffers : d1.empty_buffers = d.empty_buffers
  occupied_buffers : d1.occupied_buffers = d.occupied_buffers
  acquisition_finished : d1.acquisition_finished = d.acquisition_finished
  mono : d.repeats_done ≤ d1.repeats_done
  bound : d.repeats_done ≤ d.repeats → d1.repeats_done ≤ d.repeats

/-- The datastore with other counters in `queue_histogram`. -/
def with_histogram (d : Datastore P) (h : List Nat) : Datastore P :=
  { d with queue_histogram := h }

/-- The worker over a datastore with other counters in `queue_histogram`. -/
def Worker.withHistogram (w : Worker P) (h : List Nat) : Worker P :=
  { w with data := with_histogram w.data h }

/-- The draining worker over a datastore with other counters in `queue_histogram`. -/
def Drain.withHistogram (dr : Drain P) (h : List Nat) : Drain P :=
  { dr with data := with_histogram dr.data h }

/-- The thread over a datastore with other counters in `queue_histogram`. -/
def Thread.withHistogram (t : Thread P) (h : List Nat) : Thread P :=
  { t with data := with_histogram t.data h }

end Environment

/-! ## Growth of the accumulators -/

section Growth

variable {P : Type} [LE P]

/-- The accumulators `b` are the accumulators `a` after some additions of non-negative
amounts: same length, and entry by entry at least as large. -/
def PwrLe (a b : List P) : Prop :=
  a.length = b.length ∧ ∀ (i : Nat) (x y : P), a[i]? = some x → b[i]? = some y → x ≤ y

end Growth

/-! ## The transform -/

section Transform

variable {K : Type} [CommRing K]

/-- The forward discrete Fourier transform, the one a `FFTW_FORWARD` plan computes, with
`ω` standing for `exp(-2πi/N)`: bin `i` is the sum over `n` of `x[n] * ω ^ (n * i)`. -/
def dft (ω : K) (x : List K) (i : Nat) : K :=
  ((List.range x.length).map (fun n => x.getD n 0 * ω ^ (n * i))).sum

/-- The input with the multiplier of line 71 applied at every fill index. -/
def alternate (x : List K) : List K :=
  x.mapIdx (fun n v => v * ((multiplier n : Int) : K))

/-- A cell of the input workspace as a complex number. -/
def cell (s : Int × Int) : ℂ := ⟨(s.1 : ℝ), (s.2 : ℝ)⟩

/-- The forward plan in exact arithmetic: bin `i` of the discrete Fourier transform of the
input workspace with twiddle factor `ω` (`exp(-2πi/N)` for a plan of size `N`), as the
pair of its real and imaginary part.  The library computes in floating point, so this is
the plan only where rounding plays no part: it is used for the all-zero block alone,
whose transform is zero in floating point as well. -/
def fftw_forward (ω : ℂ) (inbuf : List (Int × Int)) (i : Nat) : ℝ × ℝ :=
  ((dft ω (inbuf.map cell) i).re, (dft ω (inbuf.map cell) i).im)

end Transform

/-! ## Lemmas -/

section Lemmas

variable {P : Type} [Add P] [Mul P]

theorem fft_accumulate_aux (outbuf : List (P × P)) :
    ∀ (k i : Nat) (pwr : List P), i + k = pwr.length → pwr.length = outbuf.length →
      fft_accumulate outbuf k i pwr =
        .ok (pwr.take i ++ List.zipWith (fun p z => p + norm z) (pwr.drop i) (outbuf.drop i)) := by
  intro k
  induction k with
  | zero =>
    intro i pwr h1 h2
    have hi : i = pwr.length := by omega
    subst hi
    simp [fft_accumulate]
  | succ k ih =>
    intro i pwr h1 h2
    have hi : i < pwr.length := by omega
    have hi2 : i < outbuf.length := by omega
    rw [fft_accumulate, List.getElem?_eq_getElem hi, List.getElem?_eq_getElem hi2]
    simp only
    rw [ih (i + 1) _ (by simp; omega) (by simp; omega)]
    congr 1
    have ht : (List.take i pwr).set i (pwr[i] + norm outbuf[i]) = List.take i pwr :=
      List.set_eq_of_length_le (by simp)
    rw [List.take_succ, List.drop_set_of_lt _ _ (Nat.lt_succ_self i), List.set_take, ht,
      List.drop_eq_getElem_cons hi, List.drop_eq_getElem_cons hi2, List.zipWith_cons_cons,
      List.getElem?_set_self hi]
    simp only [Option.toList, List.append_assoc, List.singleton_append, Nat.succ_eq_add_one]

theorem pairs_drop (buffer : List Nat) (bp : Nat) (h : bp + 2 ≤ buffer.length) :
    ∃ a b, buffer[bp]? = some a ∧ buffer[bp + 1]? = some b ∧
      pairs (buffer.drop bp) = (a, b) :: pairs (buffer.drop (bp + 2)) := by
  have h0 : bp < buffer.length := by omega
  have h1 : bp + 1 < buffer.length := by omega
  refine ⟨buffer[bp], buffer[bp + 1], List.getElem?_eq_getElem h0, List.getElem?_eq_getElem h1, ?_⟩
  rw [List.drop_eq_getElem_cons h0, List.drop_eq_getElem_cons h1, pairs]

theorem fft_transform_eq (plan : List (Int × Int) → Nat → P × P) (w : Worker P)
    (h : w.data.pwr.length = w.data.N) :
    fft_transform plan w = .ok (transformed plan w) := by
  unfold fft_transform transformed
  split
  · simp only []
    rw [fft_accumulate_aux _ _ 0 _ (by simp [h]) (by simp [h])]
    simp
  · rfl

theorem feed_cons (plan : List (Int × Int) → Nat → P × P) (w : Worker P) (s : Nat × Nat)
    (ps : List (Nat × Nat)) : feed plan w (s :: ps) = feed plan (consume plan w s) ps := rfl

theorem feed_append (plan : List (Int × Int) → Nat → P × P) (w : Worker P)
    (ps qs : List (Nat × Nat)) : feed plan w (ps ++ qs) = feed plan (feed plan w ps) qs := by
  simp [feed]

theorem feed_done (plan : List (Int × Int) → Nat → P × P) (ps : List (Nat × Nat)) :
    ∀ w : Worker P, ¬ w.data.repeats_done < w.data.repeats → feed plan w ps = w := by
  induction ps with
  | nil => intro w _; rfl
  | cons s ps ih =>
    intro w h
    have hc : consume plan w s = w := by simp [consume, h]
    rw [feed_cons, hc, ih w h]

theorem consumed_done (plan : List (Int × Int) → Nat → P × P) (ps : List (Nat × Nat))
    (w : Worker P) (h : ¬ w.data.repeats_done < w.data.repeats) : consumed plan w ps = 0 := by
  cases ps <;> simp [consumed, h]

theorem fft_outer_succ (plan : List (Int × Int) → Nat → P × P) (buffer : List Nat)
    (fuel : Nat) (dr : Drain P) :
    fft_outer plan buffer (fuel + 1) dr =
      if dr.buffer_pointer < buffer.length ∧ dr.data.repeats_done < dr.data.repeats then
        fft_round plan buffer fuel fuel dr
      else .ok dr := rfl

theorem Drain.after_eq_self (plan : List (Int × Int) → Nat → P × P) (buffer : List Nat)
    (dr : Drain P)
    (h : buffer.length ≤ dr.buffer_pointer ∨ ¬ dr.data.repeats_done < dr.data.repeats) :
    dr.after plan buffer = dr := by
  rcases h with h | h
  · simp [Drain.after, List.drop_of_length_le h, pairs, feed, consumed]
  · simp [Drain.after, feed_done plan _ _ h, consumed_done plan _ _ h]

theorem Drain.after_step (plan : List (Int × Int) → Nat → P × P) (buffer : List Nat)
    (dr dr1 : Drain P) (s : Nat × Nat)
    (hp : pairs (buffer.drop dr.buffer_pointer) = s :: pairs (buffer.drop (dr.buffer_pointer + 2)))
    (hrd : dr.data.repeats_done < dr.data.repeats)
    (hw : dr1.toWorker = consume plan dr.toWorker s)
    (hbp : dr1.buffer_pointer = dr.buffer_pointer + 2)
    (hreads : dr1.reads = dr.reads ++ [dr.buffer_pointer, dr.buffer_pointer + 1]) :
    dr1.after plan buffer = dr.after plan buffer := by
  simp only [Drain.after, hp, hw, hbp, hreads, feed_cons, consumed, hrd, if_true,
    Nat.mul_add, List.append_assoc]
  generalize consumed plan (consume plan dr.toWorker s)
    (pairs (List.drop (dr.buffer_pointer + 2) buffer)) = c
  have h1 : dr.buffer_pointer + 2 + 2 * c = dr.buffer_pointer + (2 * c + 2 * 1) := by omega
  have h2 : List.range' dr.buffer_pointer (2 * c + 2 * 1) =
      [dr.buffer_pointer, dr.buffer_pointer + 1] ++ List.range' (dr.buffer_pointer + 2) (2 * c) := by
    rw [show 2 * c + 2 * 1 = (2 * c + 1) + 1 from by omega, List.range'_succ, List.range'_succ]
    rfl
  rw [h1, h2]

theorem store_WF_of_lt (w : Worker P) (s : Nat × Nat) (h : w.WF)
    (hlt : w.fft_pointer + 1 < w.data.N) : (store w s).WF :=
  ⟨hlt, by simp [store, h.inbuf_len], h.pwr_len⟩

theorem transformed_of_ne (plan : List (Int × Int) → Nat → P × P) (w : Worker P)
    (h : w.fft_pointer ≠ w.data.N) : transformed plan w = w := by
  simp [transformed, h]

theorem transformed_store_WF (plan : List (Int × Int) → Nat → P × P) (w : Worker P)
    (s : Nat × Nat) (h : w.WF) : (transformed plan (store w s)).WF := by
  by_cases hfull : w.fft_pointer + 1 = w.data.N
  · have h1 : (store w s).fft_pointer = (store w s).data.N := hfull
    rw [transformed, if_pos h1]
    refine ⟨?_, ?_, ?_⟩
    · exact Nat.lt_of_le_of_lt (Nat.zero_le _) h.fp_lt
    · simp [store, h.inbuf_len]
    · simp [store, h.pwr_len]
  · have h1 : (store w s).fft_pointer ≠ (store w s).data.N := hfull
    rw [transformed_of_ne plan _ h1]
    exact store_WF_of_lt w s h (by have := h.fp_lt; omega)

theorem fft_inner_step (buffer : List Nat) (fuel : Nat) (dr : Drain P) (a b : Nat)
    (hfp : dr.fft_pointer < dr.data.N) (hin : dr.data.inbuf.length = dr.data.N)
    (hbp : dr.buffer_pointer < buffer.length)
    (ha : buffer[dr.buffer_pointer]? = some a) (hb : buffer[dr.buffer_pointer + 1]? = some b) :
    fft_inner buffer (fuel + 1) dr =
      fft_inner buffer fuel
        { toWorker := store dr.toWorker (a, b)
          buffer_pointer := dr.buffer_pointer + 2
          reads := dr.reads ++ [dr.buffer_pointer, dr.buffer_pointer + 1] } := by
  rw [fft_inner, if_pos ⟨hfp, hbp⟩, ha, hb]
  simp only [hin, hfp, if_true]
  rfl

theorem fft_inner_stop (buffer : List Nat) (fuel : Nat) (dr : Drain P)
    (h : ¬ (dr.fft_pointer < dr.data.N ∧ dr.buffer_pointer < buffer.length)) :
    fft_inner buffer (fuel + 1) dr = .ok dr := by
  rw [fft_inner, if_neg h]

theorem consume_WF (plan : List (Int × Int) → Nat → P × P) (w : Worker P) (s : Nat × Nat)
    (h : w.WF) : (consume plan w s).WF := by
  unfold consume
  split
  · exact transformed_store_WF plan w s h
  · exact h

theorem feed_WF (plan : List (Int × Int) → Nat → P × P) (ps : List (Nat × Nat)) :
    ∀ w : Worker P, w.WF → (feed plan w ps).WF := by
  induction ps with
  | nil => intro w h; exact h
  | cons s ps ih => intro w h; exact ih _ (consume_WF plan w s h)

/-- The outer loop with `r` pairs left gives the closed form, provided a round does. -/
theorem fft_outer_of_round (plan : List (Int × Int) → Nat → P × P) (buffer : List Nat) (r : Nat)
    (hT : ∀ (fuelI fuelO : Nat) (dr : Drain P), dr.toWorker.WF →
      dr.data.repeats_done < dr.data.repeats → dr.buffer_pointer + 2 * r = buffer.length →
      r < fuelI → r < fuelO → fft_round plan buffer fuelI fuelO dr = .ok (dr.after plan buffer))
    (fuel : Nat) (dr : Drain P) (hwf : dr.toWorker.WF)
    (hbp : dr.buffer_pointer + 2 * r = buffer.length) (hf : r + 1 < fuel) :
    fft_outer plan buffer fuel dr = .ok (dr.after plan buffer) := by
  obtain ⟨f, rfl⟩ : ∃ f, fuel = f + 1 := ⟨fuel - 1, by omega⟩
  rw [fft_outer_succ]
  split
  · next hg => exact hT f f dr hwf hg.2 hbp (by omega) (by omega)
  · next hg =>
    rw [Drain.after_eq_self]
    by_cases h1 : dr.buffer_pointer < buffer.length
    · exact Or.inr (fun h2 => hg ⟨h1, h2⟩)
    · exact Or.inl (by omega)

theorem fft_round_eq (plan : List (Int × Int) → Nat → P × P) (buffer : List Nat) :
    ∀ (r fuelI fuelO : Nat) (dr : Drain P), dr.toWorker.WF →
      dr.data.repeats_done < dr.data.repeats → dr.buffer_pointer + 2 * r = buffer.length →
      r < fuelI → r < fuelO → fft_round plan buffer fuelI fuelO dr = .ok (dr.after plan buffer) := by
  intro r
  induction r with
  | zero =>
    intro fuelI fuelO dr hwf hrd hbp hI hO
    obtain ⟨fi, rfl⟩ : ∃ f, fuelI = f + 1 := ⟨fuelI - 1, by omega⟩
    obtain ⟨fo, rfl⟩ : ∃ f, fuelO = f + 1 := ⟨fuelO - 1, by omega⟩
    have hnb : ¬ dr.buffer_pointer < buffer.length := by omega
    have hne : dr.fft_pointer ≠ dr.data.N := Nat.ne_of_lt hwf.fp_lt
    rw [fft_round, fft_inner_stop buffer fi dr (fun h => hnb h.2)]
    simp only [fft_transform, hne, if_false, fft_outer_succ, hnb, false_and]
    rw [Drain.after_eq_self plan buffer dr (Or.inl (by omega))]
  | succ r ih =>
    intro fuelI fuelO dr hwf hrd hbp hI hO
    obtain ⟨fi, rfl⟩ : ∃ f, fuelI = f + 1 := ⟨fuelI - 1, by omega⟩
    obtain ⟨a, b, ha, hb, hp⟩ := pairs_drop buffer dr.buffer_pointer (by omega)
    rw [fft_round, fft_inner_step buffer fi dr a b hwf.fp_lt hwf.inbuf_len (by omega) ha hb]
    by_cases hfull : dr.fft_pointer + 1 = dr.data.N
    · obtain ⟨fi2, rfl⟩ : ∃ f, fi = f + 1 := ⟨fi - 1, by omega⟩
      have hstop : ¬ ((store dr.toWorker (a, b)).fft_pointer < (store dr.toWorker (a, b)).data.N ∧
          dr.buffer_pointer + 2 < buffer.length) := by
        intro h
        have h1 : dr.fft_pointer + 1 < dr.data.N := h.1
        omega
      rw [fft_inner_stop buffer fi2 _ hstop]
      simp only []
      rw [fft_transform_eq plan (store dr.toWorker (a, b)) hwf.pwr_len]
      simp only []
      rw [fft_outer_of_round plan buffer r ih fuelO _
        (transformed_store_WF plan dr.toWorker (a, b) hwf) (by simp only []; omega) (by omega)]
      congr 1
      exact Drain.after_step plan buffer dr _ (a, b) hp hrd (by simp only [consume, hrd, if_true])
        rfl rfl
    · have h := ih fi fuelO
        { toWorker := store dr.toWorker (a, b)
          buffer_pointer := dr.buffer_pointer + 2
          reads := dr.reads ++ [dr.buffer_pointer, dr.buffer_pointer + 1] }
        (store_WF_of_lt _ _ hwf (by have := hwf.fp_lt; omega)) hrd (by simp only []; omega)
        (by omega) (by omega)
      rw [fft_round] at h
      rw [h]
      congr 1
      refine Drain.after_step plan buffer dr _ (a, b) hp hrd ?_ rfl rfl
      have hne : (store dr.toWorker (a, b)).fft_pointer ≠ (store dr.toWorker (a, b)).data.N := hfull
      simp only [consume, hrd, if_true, transformed_of_ne plan _ hne]

/-- Draining one even-length buffer from a well-formed worker never faults, and the
result is the closed form: the worker fed with the pairs of the buffer. -/
theorem fft_drain_eq (plan : List (Int × Int) → Nat → P × P) (buffer : List Nat) (w : Worker P)
    (hwf : w.WF) (heven : buffer.length % 2 = 0) :
    fft_drain plan buffer w =
      .ok { toWorker := feed plan w (pairs buffer)
            buffer_pointer := 2 * consumed plan w (pairs buffer)
            reads := List.range (2 * consumed plan w (pairs buffer)) } := by
  unfold fft_drain
  rw [fft_outer_of_round plan buffer (buffer.length / 2) (fft_round_eq plan buffer _) _ _ hwf
    (by simp; omega) (by omega)]
  simp [Drain.after, List.range_eq_range']

theorem pairs_append : ∀ (b1 b2 : List Nat), b1.length % 2 = 0 →
    pairs (b1 ++ b2) = pairs b1 ++ pairs b2
  | [], b2, _ => by simp [pairs]
  | [_], _, h => by simp at h
  | a :: b :: rest, b2, h => by
    have h2 : rest.length % 2 = 0 := by simp at h; omega
    simp [pairs, pairs_append rest b2 h2]

/-- A sequence of even-length buffers drained one after the other never faults: the
worker ends as if the pairs of the concatenated bytes had been fed to it. -/
theorem fft_buffers_eq (plan : List (Int × Int) → Nat → P × P) :
    ∀ (bufs : List (List Nat)) (w : Worker P), w.WF → (∀ b ∈ bufs, b.length % 2 = 0) →
      fft_buffers plan bufs w = .ok (feed plan w (pairs bufs.flatten), readLogs plan w bufs)
  | [], w, _, _ => by simp [fft_buffers, pairs, feed, readLogs]
  | b :: bs, w, hwf, h => by
    have hb : b.length % 2 = 0 := h b (List.mem_cons_self _ _)
    rw [fft_buffers, fft_drain_eq plan b w hwf hb]
    simp only []
    rw [fft_buffers_eq plan bs _ (feed_WF plan _ w hwf) (fun c hc => h c (List.mem_cons_of_mem _ hc))]
    simp only [List.flatten_cons, pairs_append b _ hb, feed_append, readLogs]

theorem block_getElem? (N : Nat) (S : List (Nat × Nat)) (k j : Nat) (hj : j < N) :
    (block N S k)[j]? = (S[k * N + j]?).map (fun s => sample j s.1 s.2) := by
  simp [block, List.getElem?_take, hj, List.getElem?_drop]

theorem block_length (N : Nat) (S : List (Nat × Nat)) (k : Nat) (h : k * N + N ≤ S.length) :
    (block N S k).length = N := by
  simp [block]; omega

theorem powerSum_succ [Zero P] (plan : List (Int × Int) → Nat → P × P) (N : Nat)
    (S : List (Nat × Nat)) (i n : Nat) :
    powerSum plan N S i (n + 1) = powerSum plan N S i n + norm (plan (block N S n) i) := by
  simp [powerSum, List.range_succ]

theorem consume_N (plan : List (Int × Int) → Nat → P × P) (w : Worker P) (s : Nat × Nat) :
    (consume plan w s).data.N = w.data.N ∧ (consume plan w s).data.repeats = w.data.repeats := by
  unfold consume transformed
  split
  · split <;> exact ⟨rfl, rfl⟩
  · exact ⟨rfl, rfl⟩

theorem tracks_consume [Zero P] (plan : List (Int × Int) → Nat → P × P) (S : List (Nat × Nat))
    (w : Worker P) (n : Nat) (s : Nat × Nat) (rest : List (Nat × Nat)) (ht : Tracks plan S w n)
    (hrd : w.data.repeats_done < w.data.repeats)
    (hdrop : S.drop (n * w.data.N + w.fft_pointer) = s :: rest) :
    ∃ n', Tracks plan S (consume plan w s) n' ∧
      S.drop (n' * w.data.N + (consume plan w s).fft_pointer) = rest := by
  have hfp := ht.wf.fp_lt
  have hlen : n * w.data.N + w.fft_pointer < S.length := by
    have := congrArg List.length hdrop
    simp at this; omega
  have hs : S[n * w.data.N + w.fft_pointer]? = some s := by
    have := congrArg (fun l => l[0]?) hdrop
    simpa [List.getElem?_drop] using this
  have hrest : S.drop (n * w.data.N + w.fft_pointer + 1) = rest := by
    have := congrArg List.tail hdrop
    simpa [List.tail_drop] using this
  have hnew : (w.data.inbuf.set w.fft_pointer (sample w.fft_pointer s.1 s.2))[w.fft_pointer]? =
      (block w.data.N S n)[w.fft_pointer]? := by
    rw [block_getElem? _ _ _ _ hfp, hs, List.getElem?_set_self (by rw [ht.wf.inbuf_len]; exact hfp)]
    rfl
  have hold : ∀ j, j < w.fft_pointer →
      (w.data.inbuf.set w.fft_pointer (sample w.fft_pointer s.1 s.2))[j]? =
        (block w.data.N S n)[j]? := by
    intro j hj
    rw [List.getElem?_set_ne (by omega)]
    exact ht.inbuf_eq j hj
  have hc : consume plan w s = transformed plan (store w s) := by simp [consume, hrd]
  by_cases hfull : w.fft_pointer + 1 = w.data.N
  · have h1 : (store w s).fft_pointer = (store w s).data.N := hfull
    have hblock : w.data.inbuf.set w.fft_pointer (sample w.fft_pointer s.1 s.2) =
        block w.data.N S n := by
      apply List.ext_getElem?
      intro j
      by_cases hj : j < w.data.N
      · by_cases hj2 : j = w.fft_pointer
        · rw [hj2]; exact hnew
        · exact hold j (by omega)
      · rw [List.getElem?_eq_none (by simp [ht.wf.inbuf_len]; omega),
          List.getElem?_eq_none (by rw [block_length _ _ _ (by omega)]; omega)]
    refine ⟨n + 1, ⟨hc ▸ transformed_store_WF plan w s ht.wf, ?_, ?_, ?_, ?_⟩, ?_⟩
    · rw [hc, transformed, if_pos h1]
      simp [store, ht.rd_eq]
    · rw [hc, transformed, if_pos h1]
      show (n + 1) * w.data.N + 0 ≤ S.length
      rw [Nat.add_mul]; omega
    · rw [hc, transformed, if_pos h1]
      intro j hj
      exact absurd hj (Nat.not_lt_zero _)
    · rw [hc, transformed, if_pos h1]
      intro i hi
      have hi' : i < w.data.N := hi
      simp only [store, hblock]
      rw [List.getElem?_zipWith, ht.pwr_eq i hi', powerSum_succ]
      simp [List.getElem?_range hi']
    · rw [hc, transformed, if_pos h1, ← hrest]
      show List.drop ((n + 1) * w.data.N + 0) S = _
      congr 1
      rw [Nat.add_mul]; omega
  · have h1 : (store w s).fft_pointer ≠ (store w s).data.N := hfull
    rw [hc, transformed_of_ne plan _ h1]
    refine ⟨n, ⟨store_WF_of_lt w s ht.wf (by omega), ht.rd_eq, ?_, ?_, ht.pwr_eq⟩, hrest⟩
    · show n * w.data.N + (w.fft_pointer + 1) ≤ S.length
      omega
    · intro j hj
      have hj' : j < w.fft_pointer + 1 := hj
      by_cases hj2 : j = w.fft_pointer
      · rw [hj2]; exact hnew
      · exact hold j (by omega)

theorem tracks_feed [Zero P] (plan : List (Int × Int) → Nat → P × P) (S : List (Nat × Nat)) :
    ∀ (rest : List (Nat × Nat)) (w : Worker P) (n : Nat), Tracks plan S w n →
      (w.data.repeats_done < w.data.repeats → S.drop (n * w.data.N + w.fft_pointer) = rest) →
      ∃ n', Tracks plan S (feed plan w rest) n' := by
  intro rest
  induction rest with
  | nil => intro w n ht _; exact ⟨n, ht⟩
  | cons s rest ih =>
    intro w n ht hdrop
    rw [feed_cons]
    by_cases hrd : w.data.repeats_done < w.data.repeats
    · obtain ⟨n', ht', hd'⟩ := tracks_consume plan S w n s rest ht hrd (hdrop hrd)
      exact ih _ n' ht' (fun _ => by rw [(consume_N plan w s).1]; exact hd')
    · have hc : consume plan w s = w := by simp [consume, hrd]
      rw [hc]
      exact ih w n ht (fun h => absurd h hrd)

theorem readLogs_length (plan : List (Int × Int) → Nat → P × P) :
    ∀ (bufs : List (List Nat)) (w : Worker P), (readLogs plan w bufs).length = bufs.length
  | [], _ => rfl
  | _ :: bs, w => by simp [readLogs, readLogs_length plan bs]

theorem pairs_length : ∀ (b : List Nat), (pairs b).length = b.length / 2
  | [] => by simp [pairs]
  | [_] => by simp [pairs]
  | _ :: _ :: rest => by simp [pairs, pairs_length rest]; omega

theorem consumed_le (plan : List (Int × Int) → Nat → P × P) :
    ∀ (ps : List (Nat × Nat)) (w : Worker P), consumed plan w ps ≤ ps.length
  | [], _ => Nat.le_refl _
  | s :: ps, w => by
    unfold consumed
    split
    · have := consumed_le plan ps (consume plan w s)
      simp; omega
    · exact Nat.zero_le _

theorem consumed_eq_length (plan : List (Int × Int) → Nat → P × P) :
    ∀ (ps : List (Nat × Nat)) (w : Worker P),
      (feed plan w ps).data.repeats_done < (feed plan w ps).data.repeats →
      consumed plan w ps = ps.length
  | [], _, _ => rfl
  | s :: ps, w, h => by
    have hrd : w.data.repeats_done < w.data.repeats := by
      by_contra hn
      rw [feed_done plan _ w hn] at h
      exact hn h
    rw [feed_cons] at h
    simp [consumed, hrd, consumed_eq_length plan ps _ h]

theorem readLogs_mem (plan : List (Int × Int) → Nat → P × P) :
    ∀ (bufs : List (List Nat)) (w : Worker P) (k : Nat), k < bufs.length →
      ∃ m, m ≤ (bufs.getD k []).length ∧ (readLogs plan w bufs)[k]? = some (List.range m)
  | [], _, _, h => absurd h (Nat.not_lt_zero _)
  | b :: bs, w, 0, _ => by
    refine ⟨2 * consumed plan w (pairs b), ?_, by simp [readLogs]⟩
    have h1 := consumed_le plan (pairs b) w
    rw [pairs_length] at h1
    simp only [List.getD_cons_zero]
    omega
  | b :: bs, w, k + 1, h => by
    obtain ⟨m, hm, hl⟩ := readLogs_mem plan bs (feed plan w (pairs b)) k (by simpa using h)
    exact ⟨m, by simpa using hm, by simpa [readLogs] using hl⟩

theorem readLogs_all (plan : List (Int × Int) → Nat → P × P) :
    ∀ (bufs : List (List Nat)) (w : Worker P), (∀ b ∈ bufs, b.length % 2 = 0) →
      (feed plan w (pairs bufs.flatten)).data.repeats_done <
        (feed plan w (pairs bufs.flatten)).data.repeats →
      readLogs plan w bufs = bufs.map (fun b => List.range b.length)
  | [], _, _, _ => rfl
  | b :: bs, w, heven, h => by
    have hb : b.length % 2 = 0 := heven b (List.mem_cons_self _ _)
    rw [List.flatten_cons, pairs_append b _ hb, feed_append] at h
    have h1 : (feed plan w (pairs b)).data.repeats_done < (feed plan w (pairs b)).data.repeats := by
      by_contra hn
      rw [feed_done plan _ _ hn] at h
      exact hn h
    have h2 := consumed_eq_length plan (pairs b) w h1
    rw [pairs_length] at h2
    rw [readLogs, readLogs_all plan bs _ (fun c hc => heven c (List.mem_cons_of_mem _ hc)) h, h2]
    simp only [List.map_cons]
    congr 2
    omega

theorem readLogs_done (plan : List (Int × Int) → Nat → P × P) :
    ∀ (bufs : List (List Nat)) (w : Worker P), ¬ w.data.repeats_done < w.data.repeats →
      readLogs plan w bufs = bufs.map (fun _ => [])
  | [], _, _ => rfl
  | b :: bs, w, h => by
    rw [readLogs, feed_done plan _ w h, consumed_done plan _ w h, readLogs_done plan bs w h]
    rfl

theorem fresh_tracks [Zero P] (plan : List (Int × Int) → Nat → P × P) (S : List (Nat × Nat))
    (w : Worker P) (hN : 1 ≤ w.data.N) (hfp : w.fft_pointer = 0)
    (hrd : w.data.repeats_done = 0) (hpwr : w.data.pwr = List.replicate w.data.N 0)
    (hin : w.data.inbuf.length = w.data.N) : Tracks plan S w 0 := by
  refine ⟨⟨by omega, hin, by rw [hpwr]; simp⟩, by simp [hrd], by simp [hfp], ?_, ?_⟩
  · intro j hj
    omega
  · intro i hi
    rw [hpwr]
    simp [powerSum, hi]

theorem feed_N (plan : List (Int × Int) → Nat → P × P) (ps : List (Nat × Nat)) :
    ∀ w : Worker P, (feed plan w ps).data.N = w.data.N ∧
      (feed plan w ps).data.repeats = w.data.repeats := by
  induction ps with
  | nil => intro w; exact ⟨rfl, rfl⟩
  | cons s ps ih =>
    intro w
    rw [feed_cons]
    exact ⟨(ih _).1.trans (consume_N plan w s).1, (ih _).2.trans (consume_N plan w s).2⟩

theorem multiplier_eq_neg_one_pow (n : Nat) : multiplier n = (-1) ^ n := by
  unfold multiplier
  split
  · next h => rw [Even.neg_one_pow (Nat.even_iff.mpr h)]
  · next h => rw [Odd.neg_one_pow (Nat.odd_iff.mpr (by omega))]

theorem alternate_getD {K : Type} [CommRing K] (x : List K) (n : Nat) :
    (alternate x).getD n 0 = x.getD n 0 * ((multiplier n : Int) : K) := by
  simp only [alternate, List.getD_eq_getElem?_getD, List.getElem?_mapIdx]
  cases x[n]? <;> simp

theorem dft_alternate {K : Type} [CommRing K] (ω : K) (x : List K) (i : Nat)
    (hN : ω ^ x.length = 1)
    (hhalf : ∀ n, n < x.length → ((multiplier n : Int) : K) = ω ^ (n * (x.length / 2))) :
    dft ω (alternate x) i = dft ω x ((i + x.length / 2) % x.length) := by
  unfold dft
  have hlen : (alternate x).length = x.length := by simp [alternate]
  rw [hlen]
  congr 1
  apply List.map_congr_left
  intro n hn
  have hn' : n < x.length := List.mem_range.mp hn
  rw [alternate_getD, hhalf n hn', mul_assoc, ← pow_add]
  congr 1
  have hk : ω ^ ((i + x.length / 2) % x.length) = ω ^ (i + x.length / 2) := by
    conv_rhs => rw [← Nat.mod_add_div (i + x.length / 2) x.length]
    rw [pow_add, pow_mul, hN, one_pow, mul_one]
  rw [pow_mul', hk, ← pow_mul']
  congr 1
  ring

theorem twiddle_pow_N (N : Nat) (h : 1 ≤ N) :
    Complex.exp (-(2 * Real.pi * Complex.I) / N) ^ N = 1 := by
  have hN : (N : ℂ) ≠ 0 := by exact_mod_cast (by omega : N ≠ 0)
  rw [← Complex.exp_nat_mul]
  have : (N : ℂ) * (-(2 * Real.pi * Complex.I) / N) = -(2 * Real.pi * Complex.I) := by
    field_simp
    ring
  rw [this, Complex.exp_neg, Complex.exp_two_pi_mul_I, inv_one]

theorem twiddle_pow_half (N : Nat) (h : 1 ≤ N) (heven : N % 2 = 0) :
    Complex.exp (-(2 * Real.pi * Complex.I) / N) ^ (N / 2) = -1 := by
  obtain ⟨m, rfl⟩ : ∃ m, N = 2 * m := ⟨N / 2, by omega⟩
  have hm : (m : ℂ) ≠ 0 := by exact_mod_cast (by omega : m ≠ 0)
  rw [← Complex.exp_nat_mul]
  have : ((2 * m / 2 : ℕ) : ℂ) * (-(2 * Real.pi * Complex.I) / ((2 * m : ℕ) : ℂ)) =
      -(Real.pi * Complex.I) := by
    rw [Nat.mul_div_cancel_left m (by norm_num)]
    push_cast
    field_simp
    ring
  rw [this, Complex.exp_neg, Complex.exp_pi_mul_I]
  norm_num

theorem DrainFrame.refl (d : Datastore P) : DrainFrame d d :=
  ⟨rfl, rfl, rfl, rfl, rfl, rfl, rfl, Int.le_refl _, fun h => h⟩

theorem DrainFrame.trans {d d1 d2 : Datastore P} (h1 : DrainFrame d d1) (h2 : DrainFrame d1 d2) :
    DrainFrame d d2 :=
  ⟨h2.N.trans h1.N, h2.buffers.trans h1.buffers, h2.repeats.trans h1.repeats,
    h2.queue_histogram.trans h1.queue_histogram, h2.empty_buffers.trans h1.empty_buffers,
    h2.occupied_buffers.trans h1.occupied_buffers,
    h2.acquisition_finished.trans h1.acquisition_finished,
    Int.le_trans h1.mono h2.mono,
    fun h => by
      have := h2.bound (by rw [h1.repeats]; exact h1.bound h)
      rw [h1.repeats] at this
      exact this⟩

/-- The inner loop writes the input workspace and nothing else of the datastore. -/
theorem fft_inner_frame (buffer : List Nat) :
    ∀ (fuel : Nat) (dr dr1 : Drain P), fft_inner buffer fuel dr = .ok dr1 →
      dr1.data = { dr.data with inbuf := dr1.data.inbuf } := by
  intro fuel
  induction fuel with
  | zero => intro dr dr1 h; simp [fft_inner] at h
  | succ fuel ih =>
    intro dr dr1 h
    rw [fft_inner] at h
    split at h
    · split at h
      · split at h
        · have h1 := ih _ _ h
          exact h1
        · simp at h
      · simp at h
    · cases h
      rfl

theorem fft_transform_frame (plan : List (Int × Int) → Nat → P × P) (w w1 : Worker P)
    (h : fft_transform plan w = .ok w1) (hrd : w.data.repeats_done < w.data.repeats) :
    DrainFrame w.data w1.data := by
  unfold fft_transform at h
  split at h
  · simp only [] at h
    split at h
    · cases h
      exact ⟨rfl, rfl, rfl, rfl, rfl, rfl, rfl, by simp, fun _ => by simp only []; omega⟩
    · simp at h
  · cases h
    exact DrainFrame.refl _

/-- The outer loop, whatever the buffer and the fuel: if it returns, the datastore has
moved within the frame. -/
theorem fft_outer_frame (plan : List (Int × Int) → Nat → P × P) (buffer : List Nat) :
    ∀ (fuel : Nat) (dr dr1 : Drain P), fft_outer plan buffer fuel dr = .ok dr1 →
      DrainFrame dr.data dr1.data := by
  intro fuel
  induction fuel with
  | zero => intro dr dr1 h; simp [fft_outer] at h
  | succ fuel ih =>
    intro dr dr1 h
    rw [fft_outer] at h
    split at h
    · next hg =>
      split at h
      · next dr2 hin =>
        split at h
        · next w htr =>
          have h1 := fft_inner_frame buffer fuel dr dr2 hin
          have hrd2 : dr2.data.repeats_done < dr2.data.repeats := by rw [h1]; exact hg.2
          have h2 := fft_transform_frame plan _ w htr hrd2
          have h3 := ih _ _ h
          have h12 : DrainFrame dr.data dr2.data := by
            rw [h1]
            exact ⟨rfl, rfl, rfl, rfl, rfl, rfl, rfl, Int.le_refl _, fun h => h⟩
          exact (h12.trans h2).trans h3
        · simp at h
      · simp at h
    · cases h
      exact DrainFrame.refl _

theorem fft_drain_frame (plan : List (Int × Int) → Nat → P × P) (buffer : List Nat)
    (w : Worker P) (dr : Drain P) (h : fft_drain plan buffer w = .ok dr) :
    DrainFrame w.data dr.data :=
  fft_outer_frame plan buffer _ _ _ h

/-- A worker step keeps `repeats`, does not decrease `repeats_done` and keeps it up to
`repeats`. -/
theorem fft_step_repeats (plan : List (Int × Int) → Nat → P × P) (t t1 : Thread P)
    (h : fft_step plan t = .ok t1) :
    t1.data.repeats = t.data.repeats ∧ t.data.repeats_done ≤ t1.data.repeats_done ∧
      (t.data.repeats_done ≤ t.data.repeats → t1.data.repeats_done ≤ t.data.repeats) := by
  unfold fft_step at h
  split at h
  · split at h
    · split at h <;> cases h <;> exact ⟨rfl, Int.le_refl _, fun h => h⟩
    · cases h; exact ⟨rfl, Int.le_refl _, fun h => h⟩
  · split at h
    · next dr hdr =>
      cases h
      have hf := fft_drain_frame plan _ _ _ hdr
      exact ⟨hf.repeats, hf.mono, hf.bound⟩
    · simp at h
  · cases h; exact ⟨rfl, Int.le_refl _, fun h => h⟩
  · cases h; exact ⟨rfl, Int.le_refl _, fun h => h⟩

theorem foldl_push_eq_map {α : Type} (f : Nat → α) (n : Nat) :
    (List.range n).foldl (fun l i => l ++ [f i]) [] = (List.range n).map f := by
  induction n with
  | zero => rfl
  | succ n ih => simp [List.range_succ, ih]

theorem start_handles [Zero P] (N buf_length : Nat) (repeats : Int) (buffers : Nat) :
    (Thread.start (Datastore.Datastore N buf_length repeats buffers : Datastore P)).handles =
      List.range buffers := by
  simp [Thread.handles, Thread.start, Datastore.Datastore, foldl_push_eq_map, Phase.held,
    Buffer.new, Function.comp_def]

/-- A worker step moves handles between the queues and the worker, and keeps `buffers`. -/
theorem fft_step_handles (plan : List (Int × Int) → Nat → P × P) (t t1 : Thread P)
    (h : fft_step plan t = .ok t1) :
    t1.handles.Perm t.handles ∧ t1.data.buffers = t.data.buffers := by
  unfold fft_step at h
  split at h
  · next hph =>
    split at h
    · next hocc =>
      split at h <;> cases h
      · exact ⟨by simp [Thread.handles, hph, Phase.held], rfl⟩
      · exact ⟨List.Perm.refl _, rfl⟩
    · next b rest hocc =>
      cases h
      refine ⟨?_, rfl⟩
      simp only [Thread.handles, hph, hocc, Phase.held, List.append_nil, List.append_assoc]
      exact ((List.perm_append_singleton b rest).append_left _).map _
  · next b hph =>
    split at h
    · next dr hdr =>
      cases h
      have hf := fft_drain_frame plan _ _ _ hdr
      refine ⟨?_, hf.buffers⟩
      simp only [Thread.handles, hph, Phase.held, hf.empty_buffers, hf.occupied_buffers]
      exact List.Perm.refl _
    · simp at h
  · next b hph =>
    cases h
    refine ⟨?_, rfl⟩
    simp only [Thread.handles, hph, Phase.held, List.append_nil, List.append_assoc]
    exact (List.perm_append_comm.append_left _).map _
  · cases h
    exact ⟨List.Perm.refl _, rfl⟩

theorem step_handles (plan : List (Int × Int) → Nat → P × P) (s s1 : System P)
    (h : Step plan s s1) :
    s1.handles.Perm s.handles ∧ s1.thread.data.buffers = s.thread.data.buffers := by
  cases h with
  | worker hs =>
    have h1 := fft_step_handles plan _ _ hs
    exact ⟨h1.1.append_right _, h1.2⟩
  | pop hf hp =>
    unfold producer_pop at hp
    split at hp
    · simp at hp
    · next b rest hemp =>
      cases hp
      rename_i buffer _
      refine ⟨?_, rfl⟩
      simp only [System.handles, System.held, Thread.handles, hf, hemp, Option.toList,
        List.map_append, List.map_cons, List.map_nil, List.append_nil, List.append_assoc]
      have h1 := List.perm_append_singleton buffer.handle (List.map Buffer.handle rest ++
        (List.map Buffer.handle s.thread.data.occupied_buffers ++
          List.map Buffer.handle s.thread.phase.held))
      rw [List.append_assoc, List.append_assoc] at h1
      exact h1
  | fill bytes hf =>
    refine ⟨?_, rfl⟩
    simp [System.handles, System.held, hf, producer_fill]
  | push hf =>
    refine ⟨?_, rfl⟩
    simp only [System.handles, System.held, Thread.handles, hf, producer_push, Option.toList,
      List.map_append, List.map_cons, List.map_nil, List.append_nil, List.append_assoc]
    exact (List.perm_append_comm.append_left _).append_left _
  | finish => exact ⟨List.Perm.refl _, rfl⟩

theorem consume_withQueues (plan : List (Int × Int) → Nat → P × P) (w : Worker P)
    (s : Nat × Nat) (e o : List Buffer) (f : Bool) :
    consume plan (w.withQueues e o f) s = (consume plan w s).withQueues e o f := by
  unfold consume
  have h1 : (w.withQueues e o f).data.repeats_done = w.data.repeats_done := rfl
  have h2 : (w.withQueues e o f).data.repeats = w.data.repeats := rfl
  rw [h1, h2]
  split
  · unfold transformed
    have h3 : (store (w.withQueues e o f) s).fft_pointer = (store w s).fft_pointer := rfl
    have h4 : (store (w.withQueues e o f) s).data.N = (store w s).data.N := rfl
    rw [h3, h4]
    split <;> rfl
  · rfl

theorem feed_withQueues (plan : List (Int × Int) → Nat → P × P) (ps : List (Nat × Nat))
    (e o : List Buffer) (f : Bool) :
    ∀ w : Worker P, feed plan (w.withQueues e o f) ps = (feed plan w ps).withQueues e o f := by
  induction ps with
  | nil => intro w; rfl
  | cons s ps ih =>
    intro w
    rw [feed_cons, feed_cons, consume_withQueues, ih]

theorem withQueues_WF (w : Worker P) (e o : List Buffer) (f : Bool) (h : w.WF) :
    (w.withQueues e o f).WF :=
  ⟨h.fp_lt, h.inbuf_len, h.pwr_len⟩

theorem fft_drain_done (plan : List (Int × Int) → Nat → P × P) (buffer : List Nat)
    (w : Worker P) (h : ¬ w.data.repeats_done < w.data.repeats) :
    fft_drain plan buffer w = .ok { toWorker := w, buffer_pointer := 0, reads := [] } := by
  unfold fft_drain
  rw [fft_outer_succ, if_neg (fun hg => h hg.2)]

theorem fft_succ (plan : List (Int × Int) → Nat → P × P) (fuel : Nat) (t : Thread P) :
    fft plan (fuel + 1) t =
      if t.phase = .done then .ok t
      else
        match fft_step plan t with
        | .ok t1 => fft plan fuel t1
        | .error e => .error e := rfl

theorem fft_step_take (plan : List (Int × Int) → Nat → P × P) (t : Thread P) (b : Buffer)
    (rest : List Buffer) (hph : t.phase = .waiting) (hocc : t.data.occupied_buffers = b :: rest) :
    fft_step plan t =
      .ok { toWorker := t.toWorker.withQueues t.data.empty_buffers rest
              t.data.acquisition_finished
            phase := .draining b
            drained := t.drained } := by
  unfold fft_step
  rw [hph]
  simp only [hocc]
  rfl

theorem fft_step_drain (plan : List (Int × Int) → Nat → P × P) (t : Thread P) (b : Buffer)
    (hph : t.phase = .draining b) (hwf : t.toWorker.WF) (heven : b.bytes.length % 2 = 0) :
    fft_step plan t =
      .ok { toWorker := feed plan t.toWorker (pairs b.bytes)
            phase := .recycling b
            drained := t.drained ++ [b] } := by
  unfold fft_step
  rw [hph]
  simp only [fft_drain_eq plan b.bytes t.toWorker hwf heven]

theorem fft_step_recycle (plan : List (Int × Int) → Nat → P × P) (t : Thread P) (b : Buffer)
    (hph : t.phase = .recycling b) :
    fft_step plan t =
      .ok { toWorker := t.toWorker.withQueues (t.data.empty_buffers ++ [b])
              t.data.occupied_buffers t.data.acquisition_finished
            phase := .waiting
            drained := t.drained } := by
  unfold fft_step
  rw [hph]
  rfl

/-- One pass through the loop body for a well-formed worker that finds an even-length
buffer at the front of the occupied queue. -/
theorem fft_iteration_eq (plan : List (Int × Int) → Nat → P × P) (t : Thread P) (b : Buffer)
    (rest : List Buffer) (hph : t.phase = .waiting) (hocc : t.data.occupied_buffers = b :: rest)
    (hwf : t.toWorker.WF) (heven : b.bytes.length % 2 = 0) :
    fft_iteration plan t =
      .ok { toWorker := (feed plan t.toWorker (pairs b.bytes)).withQueues
              (t.data.empty_buffers ++ [b]) rest t.data.acquisition_finished
            phase := .waiting
            drained := t.drained ++ [b] } := by
  unfold fft_iteration
  rw [fft_step_take plan t b rest hph hocc]
  simp only []
  rw [fft_step_drain plan
    { toWorker := t.toWorker.withQueues t.data.empty_buffers rest t.data.acquisition_finished
      phase := .draining b
      drained := t.drained } b rfl (withQueues_WF _ _ _ _ hwf) heven]
  simp only []
  rw [fft_step_recycle plan
    { toWorker := feed plan (t.toWorker.withQueues t.data.empty_buffers rest
        t.data.acquisition_finished) (pairs b.bytes)
      phase := .recycling b
      drained := t.drained ++ [b] } b rfl, feed_withQueues]
  rfl

/-- A pass through the loop body that comes back has taken the front buffer, drained it
and pushed it to the back of the empty pool, whatever the buffer holds. -/
theorem fft_iteration_inv (plan : List (Int × Int) → Nat → P × P) (t t1 : Thread P) (b : Buffer)
    (rest : List Buffer) (hph : t.phase = .waiting) (hocc : t.data.occupied_buffers = b :: rest)
    (h : fft_iteration plan t = .ok t1) :
    ∃ dr : Drain P,
      fft_drain plan b.bytes (t.toWorker.withQueues t.data.empty_buffers rest
        t.data.acquisition_finished) = .ok dr ∧
      t1 = { toWorker := dr.toWorker.withQueues (t.data.empty_buffers ++ [b]) rest
               t.data.acquisition_finished
             phase := .waiting
             drained := t.drained ++ [b] } := by
  unfold fft_iteration at h
  rw [fft_step_take plan t b rest hph hocc] at h
  simp only [] at h
  cases hd : fft_drain plan b.bytes (t.toWorker.withQueues t.data.empty_buffers rest
      t.data.acquisition_finished) with
  | error e =>
    have hs : fft_step plan
        { toWorker := t.toWorker.withQueues t.data.empty_buffers rest t.data.acquisition_finished
          phase := .draining b
          drained := t.drained } = .error e := by
      unfold fft_step
      simp only [hd]
    rw [hs] at h
    simp at h
  | ok dr =>
    have hs : fft_step plan
        { toWorker := t.toWorker.withQueues t.data.empty_buffers rest t.data.acquisition_finished
          phase := .draining b
          drained := t.drained } =
        .ok { toWorker := dr.toWorker, phase := .recycling b, drained := t.drained ++ [b] } := by
      unfold fft_step
      simp only [hd]
    rw [hs] at h
    simp only [] at h
    rw [fft_step_recycle plan
      { toWorker := dr.toWorker, phase := .recycling b, drained := t.drained ++ [b] } b rfl] at h
    have hf := fft_drain_frame plan _ _ _ hd
    have he : dr.data.empty_buffers = t.data.empty_buffers := hf.empty_buffers
    have ho : dr.data.occupied_buffers = rest := hf.occupied_buffers
    have hfin : dr.data.acquisition_finished = t.data.acquisition_finished :=
      hf.acquisition_finished
    simp only [he, ho, hfin] at h
    refine ⟨dr, rfl, ?_⟩
    cases h
    rfl

theorem flatten_length_even : ∀ (bufs : List (List Nat)), (∀ b ∈ bufs, b.length % 2 = 0) →
    bufs.flatten.length % 2 = 0
  | [], _ => rfl
  | b :: bs, h => by
    have h1 := h b (List.mem_cons_self _ _)
    have h2 := flatten_length_even bs (fun c hc => h c (List.mem_cons_of_mem _ hc))
    simp only [List.flatten_cons, List.length_append]
    omega

/-- With `acquisition_finished` set and nobody else at the queues, the worker drains the
occupied queue front to back and leaves the loop. -/
theorem fft_drains_queue (plan : List (Int × Int) → Nat → P × P) :
    ∀ (occ : List Buffer) (t : Thread P) (fuel : Nat), t.data.occupied_buffers = occ →
      t.phase = .waiting → t.toWorker.WF → t.data.acquisition_finished = true →
      (∀ b ∈ occ, b.bytes.length % 2 = 0) → 3 * occ.length + 2 ≤ fuel →
      fft plan fuel t =
        .ok { toWorker := (feed plan t.toWorker (pairs (occ.map Buffer.bytes).flatten)).withQueues
                (t.data.empty_buffers ++ occ) [] true
              phase := .done
              drained := t.drained ++ occ } := by
  intro occ
  induction occ with
  | nil =>
    intro t fuel hocc hph hwf hfin _ hfuel
    obtain ⟨f, rfl⟩ : ∃ f, fuel = f + 2 := ⟨fuel - 2, by omega⟩
    have hstep : fft_step plan t = .ok { t with phase := .done } := by
      unfold fft_step
      rw [hph]
      simp only [hocc, hfin, if_true]
    rw [fft_succ, if_neg (by rw [hph]; exact fun h => Phase.noConfusion h), hstep]
    simp only []
    rw [fft_succ, if_pos rfl]
    congr 1
    obtain ⟨⟨d, fp⟩, ph, dr⟩ := t
    cases d
    simp only [] at hocc hfin
    subst hocc hfin
    simp [Worker.withQueues, shared_write, feed, pairs]
  | cons b rest ih =>
    intro t fuel hocc hph hwf hfin heven hfuel
    obtain ⟨f, rfl⟩ : ∃ f, fuel = f + 3 := ⟨fuel - 3, by simp at hfuel; omega⟩
    have hb : b.bytes.length % 2 = 0 := heven b (List.mem_cons_self _ _)
    rw [fft_succ, if_neg (by rw [hph]; exact fun h => Phase.noConfusion h),
      fft_step_take plan t b rest hph hocc]
    simp only []
    rw [fft_succ, if_neg (fun h => Phase.noConfusion h),
      fft_step_drain plan
        { toWorker := t.toWorker.withQueues t.data.empty_buffers rest t.data.acquisition_finished
          phase := .draining b
          drained := t.drained } b rfl (withQueues_WF _ _ _ _ hwf) hb]
    simp only []
    rw [fft_succ, if_neg (fun h => Phase.noConfusion h),
      fft_step_recycle plan
        { toWorker := feed plan (t.toWorker.withQueues t.data.empty_buffers rest
            t.data.acquisition_finished) (pairs b.bytes)
          phase := .recycling b
          drained := t.drained ++ [b] } b rfl, feed_withQueues]
    simp only []
    refine Eq.trans (ih
      { toWorker := ((feed plan t.toWorker (pairs b.bytes)).withQueues t.data.empty_buffers rest
          t.data.acquisition_finished).withQueues (t.data.empty_buffers ++ [b]) rest
          t.data.acquisition_finished
        phase := .waiting
        drained := t.drained ++ [b] } f rfl rfl
      (withQueues_WF _ _ _ _ (withQueues_WF _ _ _ _ (feed_WF plan _ _ hwf)))
      hfin (fun c hc => heven c (List.mem_cons_of_mem _ hc)) (by simp at hfuel; omega)) ?_
    congr 1
    simp only [List.map_cons, List.flatten_cons, pairs_append b.bytes _ hb, feed_append,
      feed_withQueues]
    simp [Worker.withQueues, shared_write]

/-- The inner loop does not look at `queue_histogram`. -/
theorem fft_inner_histogram (buffer : List Nat) (h : List Nat) :
    ∀ (fuel : Nat) (dr : Drain P),
      fft_inner buffer fuel (dr.withHistogram h) =
        (fft_inner buffer fuel dr).map (fun dr1 => dr1.withHistogram h) := by
  intro fuel
  induction fuel with
  | zero => intro dr; rfl
  | succ fuel ih =>
    intro dr
    rw [fft_inner, fft_inner]
    have h1 : (dr.withHistogram h).fft_pointer = dr.fft_pointer := rfl
    have h2 : (dr.withHistogram h).data.N = dr.data.N := rfl
    have h3 : (dr.withHistogram h).buffer_pointer = dr.buffer_pointer := rfl
    have h4 : (dr.withHistogram h).data.inbuf = dr.data.inbuf := rfl
    rw [h1, h2, h3, h4]
    split
    · split
      · rename_i re im _ _
        split
        · exact ih
            { data := { dr.data with
                          inbuf := dr.data.inbuf.set dr.fft_pointer
                            (sample dr.fft_pointer re im) }
              fft_pointer := dr.fft_pointer + 1
              buffer_pointer := dr.buffer_pointer + 2
              reads := dr.reads ++ [dr.buffer_pointer, dr.buffer_pointer + 1] }
        · rfl
      · rfl
    · rfl

theorem fft_transform_histogram (plan : List (Int × Int) → Nat → P × P) (h : List Nat)
    (w : Worker P) :
    fft_transform plan (w.withHistogram h) =
      (fft_transform plan w).map (fun w1 => w1.withHistogram h) := by
  unfold fft_transform
  have h1 : (w.withHistogram h).fft_pointer = w.fft_pointer := rfl
  have h2 : (w.withHistogram h).data.N = w.data.N := rfl
  have h3 : (w.withHistogram h).data.inbuf = w.data.inbuf := rfl
  have h4 : (w.withHistogram h).data.pwr = w.data.pwr := rfl
  rw [h1, h2, h3, h4]
  split
  · simp only []
    split <;> rfl
  · rfl

/-- The outer loop does not look at `queue_histogram`. -/
theorem fft_outer_histogram (plan : List (Int × Int) → Nat → P × P) (buffer : List Nat)
    (h : List Nat) :
    ∀ (fuel : Nat) (dr : Drain P),
      fft_outer plan buffer fuel (dr.withHistogram h) =
        (fft_outer plan buffer fuel dr).map (fun dr1 => dr1.withHistogram h) := by
  intro fuel
  induction fuel with
  | zero => intro dr; rfl
  | succ fuel ih =>
    intro dr
    rw [fft_outer, fft_outer, fft_inner_histogram]
    have h1 : (dr.withHistogram h).buffer_pointer = dr.buffer_pointer := rfl
    have h2 : (dr.withHistogram h).data.repeats_done = dr.data.repeats_done := rfl
    have h3 : (dr.withHistogram h).data.repeats = dr.data.repeats := rfl
    rw [h1, h2, h3]
    split
    · cases hin : fft_inner buffer fuel dr with
      | error e => rfl
      | ok dr1 =>
        simp only [Except.map]
        have h4 : (dr1.withHistogram h).toWorker = dr1.toWorker.withHistogram h := rfl
        rw [h4, fft_transform_histogram]
        cases htr : fft_transform plan dr1.toWorker with
        | error e => rfl
        | ok w => exact ih { dr1 with toWorker := w }
    · rfl

theorem fft_drain_histogram (plan : List (Int × Int) → Nat → P × P) (buffer : List Nat)
    (h : List Nat) (w : Worker P) :
    fft_drain plan buffer (w.withHistogram h) =
      (fft_drain plan buffer w).map (fun dr1 => dr1.withHistogram h) :=
  fft_outer_histogram plan buffer h _ { toWorker := w, buffer_pointer := 0, reads := [] }

/-- A worker step does not look at `queue_histogram`: with other counters it does the
same and leaves those counters in place. -/
theorem fft_step_histogram (plan : List (Int × Int) → Nat → P × P) (h : List Nat)
    (t : Thread P) :
    fft_step plan (t.withHistogram h) =
      (fft_step plan t).map (fun t1 => t1.withHistogram h) := by
  unfold fft_step
  have h1 : (t.withHistogram h).phase = t.phase := rfl
  have h2 : (t.withHistogram h).data.occupied_buffers = t.data.occupied_buffers := rfl
  have h3 : (t.withHistogram h).data.acquisition_finished = t.data.acquisition_finished := rfl
  rw [h1, h2, h3]
  split
  · split
    · split <;> rfl
    · rfl
  · next b _ =>
    have h4 : (t.withHistogram h).toWorker = t.toWorker.withHistogram h := rfl
    rw [h4, fft_drain_histogram]
    cases fft_drain plan b.bytes t.toWorker <;> rfl
  · rfl
  · rfl

/-- A worker step leaves `queue_histogram` as it is. -/
theorem fft_step_histogram_eq (plan : List (Int × Int) → Nat → P × P) (t t1 : Thread P)
    (h : fft_step plan t = .ok t1) : t1.data.queue_histogram = t.data.queue_histogram := by
  unfold fft_step at h
  split at h
  · split at h
    · split at h <;> cases h <;> rfl
    · cases h; rfl
  · split at h
    · next dr hdr =>
      cases h
      exact (fft_drain_frame plan _ _ _ hdr).queue_histogram
    · simp at h
  · cases h; rfl
  · cases h; rfl

theorem consume_repeats_done_le (plan : List (Int × Int) → Nat → P × P) (w : Worker P)
    (s : Nat × Nat) (h : w.data.repeats_done ≤ w.data.repeats) :
    (consume plan w s).data.repeats_done ≤ (consume plan w s).data.repeats := by
  unfold consume
  split
  · next hrd =>
    unfold transformed
    split
    · show w.data.repeats_done + 1 ≤ w.data.repeats
      omega
    · exact h
  · exact h

/-- The worker fed with the rest of the stream: it still tracks the stream, it has taken
every pair unless `repeats_done` has reached `repeats`, and `repeats_done` stays within
`repeats`. -/
theorem tracks_feed_full [Zero P] (plan : List (Int × Int) → Nat → P × P) (S : List (Nat × Nat)) :
    ∀ (rest : List (Nat × Nat)) (w : Worker P) (n : Nat), Tracks plan S w n →
      (w.data.repeats_done < w.data.repeats → S.drop (n * w.data.N + w.fft_pointer) = rest) →
      w.data.repeats_done ≤ w.data.repeats →
      ∃ n1, Tracks plan S (feed plan w rest) n1 ∧
        ((feed plan w rest).data.repeats_done < (feed plan w rest).data.repeats →
          n1 * w.data.N + (feed plan w rest).fft_pointer = S.length) ∧
        (feed plan w rest).data.repeats_done ≤ (feed plan w rest).data.repeats := by
  intro rest
  induction rest with
  | nil =>
    intro w n ht hdrop hle
    refine ⟨n, ht, fun h => ?_, hle⟩
    have h1 := congrArg List.length (hdrop h)
    have h2 := ht.inside
    simp only [List.length_drop, List.length_nil] at h1
    show n * w.data.N + w.fft_pointer = S.length
    omega
  | cons s rest ih =>
    intro w n ht hdrop hle
    rw [feed_cons]
    by_cases hrd : w.data.repeats_done < w.data.repeats
    · obtain ⟨n1, ht1, hd1⟩ := tracks_consume plan S w n s rest ht hrd (hdrop hrd)
      have hN := (consume_N plan w s).1
      obtain ⟨n2, ht2, hall, hle2⟩ := ih _ n1 ht1 (fun _ => by rw [hN]; exact hd1)
        (consume_repeats_done_le plan w s hle)
      exact ⟨n2, ht2, fun h => by rw [← hN]; exact hall h, hle2⟩
    · have hc : consume plan w s = w := by simp [consume, hrd]
      rw [hc]
      exact ih w n ht (fun h => absurd h hrd) hle

/-- The final state of a fresh worker fed with the stream `S`. -/
theorem fresh_feed [Zero P] (plan : List (Int × Int) → Nat → P × P) (S : List (Nat × Nat))
    (w : Worker P) (hN : 1 ≤ w.data.N) (hfp : w.fft_pointer = 0)
    (hrd : w.data.repeats_done = 0) (hpwr : w.data.pwr = List.replicate w.data.N 0)
    (hin : w.data.inbuf.length = w.data.N) (hrep : 0 ≤ w.data.repeats) :
    ∃ n, Tracks plan S (feed plan w S) n ∧
      ((feed plan w S).data.repeats_done < w.data.repeats →
        n * w.data.N + (feed plan w S).fft_pointer = S.length) ∧
      (feed plan w S).data.repeats_done ≤ w.data.repeats := by
  have h0 := fresh_tracks plan S w hN hfp hrd hpwr hin
  obtain ⟨n, ht, hall, hle⟩ := tracks_feed_full plan S S w 0 h0 (fun _ => by simp [hfp])
    (by rw [hrd]; exact hrep)
  have hR := (feed_N plan S w).2
  rw [hR] at hall hle
  exact ⟨n, ht, hall, hle⟩

theorem pairs_drop_last (buffer : List Nat) (bp : Nat) (h : bp + 1 = buffer.length) :
    pairs (buffer.drop bp) = [] := by
  have h0 : bp < buffer.length := by omega
  rw [List.drop_eq_getElem_cons h0, List.drop_of_length_le (by omega)]
  rfl

/-- The outer loop on a buffer with a trailing single byte, `r` pairs before it: the
closed form if `repeats_done` reaches `repeats` first, else the read past the end. -/
theorem fft_outer_of_round_odd (plan : List (Int × Int) → Nat → P × P) (buffer : List Nat)
    (r : Nat)
    (hT : ∀ (fuelI fuelO : Nat) (dr : Drain P), dr.toWorker.WF →
      dr.data.repeats_done < dr.data.repeats → dr.buffer_pointer + 2 * r + 1 = buffer.length →
      r < fuelI → r < fuelO →
      fft_round plan buffer fuelI fuelO dr =
        if (dr.after plan buffer).data.repeats_done < (dr.after plan buffer).data.repeats then
          .error .outOfRange
        else .ok (dr.after plan buffer))
    (fuel : Nat) (dr : Drain P) (hwf : dr.toWorker.WF)
    (hbp : dr.buffer_pointer + 2 * r + 1 = buffer.length) (hf : r + 1 < fuel) :
    fft_outer plan buffer fuel dr =
      if (dr.after plan buffer).data.repeats_done < (dr.after plan buffer).data.repeats then
        .error .outOfRange
      else .ok (dr.after plan buffer) := by
  obtain ⟨f, rfl⟩ : ∃ f, fuel = f + 1 := ⟨fuel - 1, by omega⟩
  rw [fft_outer_succ]
  split
  · next hg => exact hT f f dr hwf hg.2 hbp (by omega) (by omega)
  · next hg =>
    have hrd : ¬ dr.data.repeats_done < dr.data.repeats :=
      fun h2 => hg ⟨by omega, h2⟩
    rw [Drain.after_eq_self plan buffer dr (Or.inr hrd), if_neg hrd]

theorem fft_round_odd (plan : List (Int × Int) → Nat → P × P) (buffer : List Nat) :
    ∀ (r fuelI fuelO : Nat) (dr : Drain P), dr.toWorker.WF →
      dr.data.repeats_done < dr.data.repeats → dr.buffer_pointer + 2 * r + 1 = buffer.length →
      r < fuelI → r < fuelO →
      fft_round plan buffer fuelI fuelO dr =
        if (dr.after plan buffer).data.repeats_done < (dr.after plan buffer).data.repeats then
          .error .outOfRange
        else .ok (dr.after plan buffer) := by
  intro r
  induction r with
  | zero =>
    intro fuelI fuelO dr hwf hrd hbp hI hO
    obtain ⟨fi, rfl⟩ : ∃ f, fuelI = f + 1 := ⟨fuelI - 1, by omega⟩
    have h0 : dr.buffer_pointer < buffer.length := by omega
    have hafter : dr.after plan buffer = dr := by
      simp [Drain.after, pairs_drop_last buffer dr.buffer_pointer (by omega), feed, consumed]
    have hnone : buffer[dr.buffer_pointer + 1]? = none :=
      List.getElem?_eq_none (by omega)
    rw [hafter, if_pos hrd, fft_round, fft_inner, if_pos ⟨hwf.fp_lt, h0⟩,
      List.getElem?_eq_getElem h0, hnone]
  | succ r ih =>
    intro fuelI fuelO dr hwf hrd hbp hI hO
    obtain ⟨fi, rfl⟩ : ∃ f, fuelI = f + 1 := ⟨fuelI - 1, by omega⟩
    obtain ⟨a, b, ha, hb, hp⟩ := pairs_drop buffer dr.buffer_pointer (by omega)
    rw [fft_round, fft_inner_step buffer fi dr a b hwf.fp_lt hwf.inbuf_len (by omega) ha hb]
    by_cases hfull : dr.fft_pointer + 1 = dr.data.N
    · obtain ⟨fi2, rfl⟩ : ∃ f, fi = f + 1 := ⟨fi - 1, by omega⟩
      have hstop : ¬ ((store dr.toWorker (a, b)).fft_pointer < (store dr.toWorker (a, b)).data.N ∧
          dr.buffer_pointer + 2 < buffer.length) := by
        intro h
        have h1 : dr.fft_pointer + 1 < dr.data.N := h.1
        omega
      rw [fft_inner_stop buffer fi2 _ hstop]
      simp only []
      rw [fft_transform_eq plan (store dr.toWorker (a, b)) hwf.pwr_len]
      simp only []
      rw [fft_outer_of_round_odd plan buffer r ih fuelO _
        (transformed_store_WF plan dr.toWorker (a, b) hwf) (by simp only []; omega) (by omega)]
      rw [Drain.after_step plan buffer dr _ (a, b) hp hrd (by simp only [consume, hrd, if_true])
        rfl rfl]
    · have h := ih fi fuelO
        { toWorker := store dr.toWorker (a, b)
          buffer_pointer := dr.buffer_pointer + 2
          reads := dr.reads ++ [dr.buffer_pointer, dr.buffer_pointer + 1] }
        (store_WF_of_lt _ _ hwf (by have := hwf.fp_lt; omega)) hrd (by simp only []; omega)
        (by omega) (by omega)
      rw [fft_round] at h
      rw [h]
      have hne : (store dr.toWorker (a, b)).fft_pointer ≠ (store dr.toWorker (a, b)).data.N := hfull
      rw [Drain.after_step plan buffer dr _ (a, b) hp hrd
        (by simp only [consume, hrd, if_true, transformed_of_ne plan _ hne]) rfl rfl]

/-- Draining a buffer of odd length from a well-formed worker: if the complete pairs bring
`repeats_done` up to `repeats` the drain ends as for the buffer without its last byte;
otherwise the inner loop reads index `buffer.size()`, one past the end. -/
theorem fft_drain_odd (plan : List (Int × Int) → Nat → P × P) (buffer : List Nat) (w : Worker P)
    (hwf : w.WF) (hodd : buffer.length % 2 = 1) :
    fft_drain plan buffer w =
      if (feed plan w (pairs buffer)).data.repeats_done <
          (feed plan w (pairs buffer)).data.repeats then .error .outOfRange
      else .ok { toWorker := feed plan w (pairs buffer)
                 buffer_pointer := 2 * consumed plan w (pairs buffer)
                 reads := List.range (2 * consumed plan w (pairs buffer)) } := by
  unfold fft_drain
  rw [fft_outer_of_round_odd plan buffer (buffer.length / 2) (fft_round_odd plan buffer _) _ _ hwf
    (by simp; omega) (by omega)]
  simp [Drain.after, List.range_eq_range']

theorem pairs_dropLast (buffer : List Nat) (hodd : buffer.length % 2 = 1) :
    pairs buffer.dropLast = pairs buffer := by
  have hne : buffer ≠ [] := by
    intro h
    rw [h] at hodd
    simp at hodd
  have hlen : buffer.dropLast.length % 2 = 0 := by
    rw [List.length_dropLast]
    omega
  conv_rhs => rw [← List.dropLast_append_getLast hne]
  rw [pairs_append _ _ hlen]
  simp [pairs]

end Lemmas

/-! ## Lemmas on the bytes read -/

section ReadLemmas

variable {P : Type} [Add P] [Mul P]

theorem pairs_wanted_done (w : Worker P) (h : ¬ w.data.repeats_done < w.data.repeats) :
    pairs_wanted w = 0 := by
  unfold pairs_wanted
  have h0 : (w.data.repeats - w.data.repeats_done).toNat = 0 := by omega
  rw [h0, Nat.zero_mul, Nat.zero_sub]

theorem pairs_wanted_consume (plan : List (Int × Int) → Nat → P × P) (w : Worker P)
    (s : Nat × Nat) (hwf : w.WF) (hrd : w.data.repeats_done < w.data.repeats) :
    pairs_wanted (consume plan w s) + 1 = pairs_wanted w := by
  have hfp := hwf.fp_lt
  obtain ⟨R, hR⟩ : ∃ R, (w.data.repeats - w.data.repeats_done).toNat = R + 1 :=
    ⟨(w.data.repeats - w.data.repeats_done).toNat - 1, by omega⟩
  have hc : consume plan w s = transformed plan (store w s) := by simp [consume, hrd]
  rw [hc]
  by_cases hfull : w.fft_pointer + 1 = w.data.N
  · have h1 : (store w s).fft_pointer = (store w s).data.N := hfull
    rw [transformed, if_pos h1]
    show (w.data.repeats - (w.data.repeats_done + 1)).toNat * w.data.N - 0 + 1 =
      (w.data.repeats - w.data.repeats_done).toNat * w.data.N - w.fft_pointer
    have h2 : (w.data.repeats - (w.data.repeats_done + 1)).toNat = R := by omega
    rw [h2, hR, Nat.succ_mul]
    omega
  · have h1 : (store w s).fft_pointer ≠ (store w s).data.N := hfull
    rw [transformed_of_ne plan _ h1]
    show (w.data.repeats - w.data.repeats_done).toNat * w.data.N - (w.fft_pointer + 1) + 1 =
      (w.data.repeats - w.data.repeats_done).toNat * w.data.N - w.fft_pointer
    rw [hR, Nat.succ_mul]
    omega

/-- The number of pairs taken from a list of pairs: all of them, or as many as are wanted. -/
theorem consumed_eq_min (plan : List (Int × Int) → Nat → P × P) :
    ∀ (ps : List (Nat × Nat)) (w : Worker P), w.WF →
      consumed plan w ps = min ps.length (pairs_wanted w) ∧
      pairs_wanted (feed plan w ps) = pairs_wanted w - min ps.length (pairs_wanted w)
  | [], w, _ => by simp [consumed, feed]
  | s :: ps, w, hwf => by
    by_cases hrd : w.data.repeats_done < w.data.repeats
    · have h1 := pairs_wanted_consume plan w s hwf hrd
      have ih := consumed_eq_min plan ps (consume plan w s) (consume_WF plan w s hwf)
      rw [feed_cons, consumed, if_pos hrd, ih.1, ih.2]
      simp only [List.length_cons]
      omega
    · have h0 := pairs_wanted_done w hrd
      rw [feed_done plan _ w hrd, consumed_done plan _ w hrd, h0]
      simp

/-- The bytes read from buffer `k` of a sequence of even-length buffers: those before the
point where the stream has given the worker the pairs it wanted. -/
theorem readLogs_exact (plan : List (Int × Int) → Nat → P × P) :
    ∀ (bufs : List (List Nat)) (w : Worker P) (k : Nat), w.WF →
      (∀ b ∈ bufs, b.length % 2 = 0) → k < bufs.length →
      (readLogs plan w bufs)[k]? =
        some (List.range (min (bufs.getD k []).length
          (2 * pairs_wanted w - (bufs.take k).flatten.length)))
  | [], _, _, _, _, h => absurd h (Nat.not_lt_zero _)
  | b :: bs, w, 0, hwf, heven, _ => by
    have hb : b.length % 2 = 0 := heven b (List.mem_cons_self _ _)
    have h1 := (consumed_eq_min plan (pairs b) w hwf).1
    rw [pairs_length] at h1
    simp only [readLogs, List.getElem?_cons_zero, List.getD_cons_zero, List.take_zero,
      List.flatten_nil, List.length_nil, h1]
    congr 2
    omega
  | b :: bs, w, k + 1, hwf, heven, hk => by
    have hb : b.length % 2 = 0 := heven b (List.mem_cons_self _ _)
    have h2 := (consumed_eq_min plan (pairs b) w hwf).2
    rw [pairs_length] at h2
    have ih := readLogs_exact plan bs (feed plan w (pairs b)) k (feed_WF plan _ w hwf)
      (fun c hc => heven c (List.mem_cons_of_mem _ hc)) (by simpa using hk)
    simp only [readLogs, List.getElem?_cons_succ, List.getD_cons_succ, List.take_succ_cons,
      List.flatten_cons, List.length_append, ih, h2]
    congr 2
    omega

end ReadLemmas

/-! ## Lemmas on the cells of the input workspace left from earlier writes -/

section WorkspaceLemmas

variable {P : Type} [Add P] [Mul P]

theorem retains_consume [Zero P] (plan : List (Int × Int) → Nat → P × P) (S : List (Nat × Nat))
    (init : List (Int × Int)) (w : Worker P) (n n1 : Nat) (s : Nat × Nat)
    (rest : List (Nat × Nat)) (ht : Tracks plan S w n) (hk : Retains S init w n)
    (hrd : w.data.repeats_done < w.data.repeats)
    (hdrop : S.drop (n * w.data.N + w.fft_pointer) = s :: rest)
    (ht1 : Tracks plan S (consume plan w s) n1) : Retains S init (consume plan w s) n1 := by
  have hfp := ht.wf.fp_lt
  have hs : S[n * w.data.N + w.fft_pointer]? = some s := by
    have := congrArg (fun l => l[0]?) hdrop
    simpa [List.getElem?_drop] using this
  have hc : consume plan w s = transformed plan (store w s) := by simp [consume, hrd]
  have hrd1 := ht1.rd_eq
  by_cases hfull : w.fft_pointer + 1 = w.data.N
  · have h1 : (store w s).fft_pointer = (store w s).data.N := hfull
    rw [hc, transformed, if_pos h1] at hrd1 ⊢
    have hn : n1 = n + 1 := by
      have h2 : w.data.repeats_done + 1 = (n1 : Int) := hrd1
      have h3 := ht.rd_eq
      omega
    subst hn
    constructor
    · intro j _ hj _
      have hj' : j < w.data.N := hj
      show (w.data.inbuf.set w.fft_pointer (sample w.fft_pointer s.1 s.2))[j]? =
        (block w.data.N S (n + 1 - 1))[j]?
      rw [Nat.add_sub_cancel]
      by_cases hj2 : j = w.fft_pointer
      · rw [hj2, block_getElem? _ _ _ _ hfp, hs,
          List.getElem?_set_self (by rw [ht.wf.inbuf_len]; exact hfp)]
        rfl
      · rw [List.getElem?_set_ne (fun h => hj2 h.symm)]
        exact ht.inbuf_eq j (by omega)
    · intro j _ _ h0
      omega
  · have h1 : (store w s).fft_pointer ≠ (store w s).data.N := hfull
    rw [hc, transformed_of_ne plan _ h1] at hrd1 ⊢
    have hn : n1 = n := by
      have h2 : w.data.repeats_done = (n1 : Int) := hrd1
      have h3 := ht.rd_eq
      omega
    subst hn
    constructor
    · intro j hj hjN hn
      have hj' : w.fft_pointer + 1 ≤ j := hj
      show (w.data.inbuf.set w.fft_pointer (sample w.fft_pointer s.1 s.2))[j]? = _
      rw [List.getElem?_set_ne (by omega)]
      exact hk.prev j (by omega) hjN hn
    · intro j hj hjN hn
      have hj' : w.fft_pointer + 1 ≤ j := hj
      show (w.data.inbuf.set w.fft_pointer (sample w.fft_pointer s.1 s.2))[j]? = _
      rw [List.getElem?_set_ne (by omega)]
      exact hk.first j (by omega) hjN hn

theorem retains_feed [Zero P] (plan : List (Int × Int) → Nat → P × P) (S : List (Nat × Nat))
    (init : List (Int × Int)) :
    ∀ (rest : List (Nat × Nat)) (w : Worker P) (n : Nat), Tracks plan S w n →
      Retains S init w n →
      (w.data.repeats_done < w.data.repeats → S.drop (n * w.data.N + w.fft_pointer) = rest) →
      ∀ n1, Tracks plan S (feed plan w rest) n1 → Retains S init (feed plan w rest) n1 := by
  intro rest
  induction rest with
  | nil =>
    intro w n ht hk _ n1 ht1
    have hn : n1 = n := by
      have h2 : w.data.repeats_done = (n1 : Int) := ht1.rd_eq
      have h3 := ht.rd_eq
      omega
    subst hn
    exact hk
  | cons s rest ih =>
    intro w n ht hk hdrop n1 ht1
    rw [feed_cons] at ht1 ⊢
    by_cases hrd : w.data.repeats_done < w.data.repeats
    · obtain ⟨n', ht', hd'⟩ := tracks_consume plan S w n s rest ht hrd (hdrop hrd)
      have hk' := retains_consume plan S init w n n' s rest ht hk hrd (hdrop hrd) ht'
      exact ih _ n' ht' hk' (fun _ => by rw [(consume_N plan w s).1]; exact hd') n1 ht1
    · have hc : consume plan w s = w := by simp [consume, hrd]
      rw [hc] at ht1 ⊢
      exact ih w n ht hk (fun h => absurd h hrd) n1 ht1

end WorkspaceLemmas

/-! ## Lemmas on the order of the accumulators -/

section OrderedLemmas

variable {P : Type} [LinearOrderedRing P]

theorem norm_nonneg_pair (z : P × P) : 0 ≤ norm z :=
  add_nonneg (mul_self_nonneg _) (mul_self_nonneg _)

theorem pwrLe_refl (a : List P) : PwrLe a a :=
  ⟨rfl, fun i x y hx hy => by rw [hx] at hy; cases hy; exact le_refl _⟩

theorem pwrLe_trans {a b c : List P} (h1 : PwrLe a b) (h2 : PwrLe b c) : PwrLe a c := by
  refine ⟨h1.1.trans h2.1, fun i x z hx hz => ?_⟩
  have hi : i < a.length := (List.getElem?_eq_some_iff.mp hx).1
  have hib : i < b.length := by rw [← h1.1]; exact hi
  have hb : b[i]? = some b[i] := List.getElem?_eq_getElem hib
  exact le_trans (h1.2 i x _ hx hb) (h2.2 i _ z hb hz)

theorem pwrLe_set (a : List P) (i : Nat) (p v : P) (h : a[i]? = some p) (hle : p ≤ v) :
    PwrLe a (a.set i v) := by
  refine ⟨by simp, fun j x y hx hy => ?_⟩
  rw [List.getElem?_set] at hy
  by_cases hij : i = j
  · subst hij
    rw [h] at hx
    cases hx
    have hi : i < a.length := (List.getElem?_eq_some_iff.mp h).1
    simp [hi] at hy
    rw [← hy]
    exact hle
  · simp only [hij, if_false] at hy
    rw [hx] at hy
    cases hy
    exact le_refl _

theorem pwrLe_nonneg {a b : List P} (h : PwrLe a b) (ha : ∀ x ∈ a, 0 ≤ x) :
    ∀ y ∈ b, 0 ≤ y := by
  intro y hy
  obtain ⟨i, hi⟩ := List.mem_iff_getElem?.mp hy
  have hlt : i < a.length := by
    rw [h.1]
    exact (List.getElem?_eq_some_iff.mp hi).1
  have hx : a[i]? = some a[i] := List.getElem?_eq_getElem hlt
  exact le_trans (ha _ (List.getElem_mem hlt)) (h.2 i _ y hx hi)

theorem fft_accumulate_le (outbuf : List (P × P)) :
    ∀ (k i : Nat) (pwr pwr1 : List P), fft_accumulate outbuf k i pwr = .ok pwr1 →
      PwrLe pwr pwr1 := by
  intro k
  induction k with
  | zero =>
    intro i pwr pwr1 h
    rw [fft_accumulate] at h
    cases h
    exact pwrLe_refl _
  | succ k ih =>
    intro i pwr pwr1 h
    rw [fft_accumulate] at h
    split at h
    · next p z hp hz =>
      exact pwrLe_trans (pwrLe_set pwr i p _ hp (le_add_of_nonneg_right (norm_nonneg_pair z)))
        (ih _ _ _ h)
    · simp at h

theorem fft_transform_le (plan : List (Int × Int) → Nat → P × P) (w w1 : Worker P)
    (h : fft_transform plan w = .ok w1) : PwrLe w.data.pwr w1.data.pwr := by
  unfold fft_transform at h
  split at h
  · simp only [] at h
    split at h
    · next pwr hacc =>
      cases h
      exact fft_accumulate_le _ _ _ _ _ hacc
    · simp at h
  · cases h
    exact pwrLe_refl _

theorem fft_outer_le (plan : List (Int × Int) → Nat → P × P) (buffer : List Nat) :
    ∀ (fuel : Nat) (dr dr1 : Drain P), fft_outer plan buffer fuel dr = .ok dr1 →
      PwrLe dr.data.pwr dr1.data.pwr := by
  intro fuel
  induction fuel with
  | zero => intro dr dr1 h; simp [fft_outer] at h
  | succ fuel ih =>
    intro dr dr1 h
    rw [fft_outer] at h
    split at h
    · split at h
      · next dr2 hin =>
        split at h
        · next w htr =>
          have h1 := fft_inner_frame buffer fuel dr dr2 hin
          have h2 := fft_transform_le plan _ w htr
          have h3 := ih _ _ h
          have h12 : dr2.data.pwr = dr.data.pwr := by rw [h1]
          rw [h12] at h2
          exact pwrLe_trans h2 h3
        · simp at h
      · simp at h
    · cases h
      exact pwrLe_refl _

/-- A worker step keeps `N` and the length of `pwr` and lets no accumulator decrease. -/
theorem fft_step_le (plan : List (Int × Int) → Nat → P × P) (t t1 : Thread P)
    (h : fft_step plan t = .ok t1) :
    t1.data.N = t.data.N ∧ PwrLe t.data.pwr t1.data.pwr := by
  unfold fft_step at h
  split at h
  · split at h
    · split at h <;> cases h <;> exact ⟨rfl, pwrLe_refl _⟩
    · cases h; exact ⟨rfl, pwrLe_refl _⟩
  · split at h
    · next dr hdr =>
      cases h
      exact ⟨(fft_drain_frame plan _ _ _ hdr).N, fft_outer_le plan _ _ _ _ hdr⟩
    · simp at h
  · cases h; exact ⟨rfl, pwrLe_refl _⟩
  · cases h; exact ⟨rfl, pwrLe_refl _⟩

end OrderedLemmas

/-! ## Lemmas on the exact transform -/

section ExactLemmas

theorem sum_map_range {K : Type} [CommRing K] (f : Nat → K) (n : Nat) :
    ((List.range n).map f).sum = ∑ i in Finset.range n, f i := by
  induction n with
  | zero => simp
  | succ n ih => simp [List.range_succ, Finset.sum_range_succ, ih]

theorem dft_replicate {K : Type} [CommRing K] (ω c : K) (N k : Nat) :
    dft ω (List.replicate N c) k = c * ∑ n in Finset.range N, (ω ^ k) ^ n := by
  unfold dft
  rw [List.length_replicate, Finset.mul_sum, ← sum_map_range]
  congr 1
  apply List.map_congr_left
  intro n hn
  have hn1 : n < N := List.mem_range.mp hn
  rw [List.getD_eq_getElem?_getD, List.getElem?_replicate, if_pos hn1, ← pow_mul, Nat.mul_comm]
  rfl

theorem dft_zero {K : Type} [CommRing K] (ω : K) (m k : Nat) :
    dft ω (List.replicate m 0) k = 0 := by
  rw [dft_replicate, zero_mul]

theorem fftw_forward_zero (ω : ℂ) (m i : Nat) :
    fftw_forward ω (List.replicate m (0, 0)) i = (0, 0) := by
  have hc : cell ((0 : Int), (0 : Int)) = 0 := by
    apply Complex.ext <;> simp [cell]
  unfold fftw_forward
  rw [List.map_replicate, hc, dft_zero]
  rfl

theorem pairs_mem : ∀ (b : List Nat) (s : Nat × Nat), s ∈ pairs b → s.1 ∈ b ∧ s.2 ∈ b
  | [], s, h => by simp [pairs] at h
  | [_], s, h => by simp [pairs] at h
  | x :: y :: rest, s, h => by
    simp only [pairs, List.mem_cons] at h
    rcases h with h | h
    · subst h
      simp
    · have := pairs_mem rest s h
      simp [this.1, this.2]

theorem block_zero (N : Nat) (S : List (Nat × Nat)) (k : Nat)
    (hS : ∀ s ∈ S, s = (127, 127)) :
    block N S k = List.replicate (block N S k).length (0, 0) := by
  rw [List.eq_replicate_iff]
  refine ⟨rfl, ?_⟩
  intro b hb
  simp only [block, List.mem_mapIdx] at hb
  obtain ⟨i, hi, heq⟩ := hb
  have hs : (List.take N (List.drop (k * N) S))[i] = (127, 127) :=
    hS _ (List.mem_of_mem_drop (List.mem_of_mem_take (List.getElem_mem hi)))
  rw [← heq, hs]
  simp [sample]

theorem powerSum_zero (plan : List (Int × Int) → Nat → ℝ × ℝ) (N : Nat) (S : List (Nat × Nat))
    (i : Nat) (h : ∀ k, norm (plan (block N S k) i) = 0) :
    ∀ n, powerSum plan N S i n = 0
  | 0 => rfl
  | n + 1 => by rw [powerSum_succ, powerSum_zero plan N S i h n, h n, add_zero]

theorem fresh_feed_count {P : Type} [Zero P] [Add P] [Mul P]
    (plan : List (Int × Int) → Nat → P × P) (S : List (Nat × Nat))
    (w : Worker P) (hN : 1 ≤ w.data.N) (hfp : w.fft_pointer = 0)
    (hrd : w.data.repeats_done = 0) (hpwr : w.data.pwr = List.replicate w.data.N 0)
    (hin : w.data.inbuf.length = w.data.N) (hrep : 0 ≤ w.data.repeats) :
    ∃ n, Tracks plan S (feed plan w S) n ∧
      (n : Int) = min w.data.repeats ((S.length / w.data.N : Nat) : Int) := by
  obtain ⟨n, ht, hall, hle⟩ := fresh_feed plan S w hN hfp hrd hpwr hin hrep
  have hN1 := (feed_N plan S w).1
  have hfpN := ht.wf.fp_lt
  have hins := ht.inside
  rw [hN1] at hfpN hins
  refine ⟨n, ht, ?_⟩
  rw [ht.rd_eq] at hall hle
  by_cases hlt : (n : Int) < w.data.repeats
  · have hq : S.length / w.data.N = n := by
      apply Nat.div_eq_of_lt_le
      · have := hall hlt
        omega
      · have := hall hlt
        rw [Nat.succ_mul]
        omega
    rw [hq, min_eq_right (Int.le_of_lt hlt)]
  · have heq : (n : Int) = w.data.repeats := by omega
    have hq : n ≤ S.length / w.data.N :=
      (Nat.le_div_iff_mul_le (by omega)).mpr (by omega)
    rw [← heq, min_eq_left (by exact_mod_cast hq)]

end ExactLemmas

/-! ## The claims -/

section Claims

variable {P : Type} [Zero P] [Add P] [Mul P]

/-- C1. From a fresh worker state (`pwr` all zero, `repeats_done = 0`, fill index 0, as the
constructor and line 50 leave them; the input workspace may hold anything), with `N ≥ 1`,
the worker drains any sequence of even-length buffers without fault, and afterwards
`repeats_done` is some `n` with `n` whole blocks inside the sample stream, and every
`pwr[i]`, `i < N`, is the sum over `k < n` of the squared magnitude of bin `i` of the
transform of block `k` of the concatenated stream. -/
theorem pwr_eq_sum_of_block_powers (plan : List (Int × Int) → Nat → P × P)
    (bufs : List (List Nat)) (w : Worker P) (hN : 1 ≤ w.data.N) (hfp : w.fft_pointer = 0)
    (hrd : w.data.repeats_done = 0) (hpwr : w.data.pwr = List.replicate w.data.N 0)
    (hin : w.data.inbuf.length = w.data.N) (heven : ∀ b ∈ bufs, b.length % 2 = 0) :
    ∃ (w1 : Worker P) (logs : List (List Nat)) (n : Nat),
      fft_buffers plan bufs w = .ok (w1, logs) ∧
      w1.data.repeats_done = (n : Int) ∧
      n * w.data.N ≤ (pairs bufs.flatten).length ∧
      w1.data.pwr.length = w.data.N ∧
      ∀ i, i < w.data.N →
        w1.data.pwr[i]? = some (powerSum plan w.data.N (pairs bufs.flatten) i n) := by
  have h0 := fresh_tracks plan (pairs bufs.flatten) w hN hfp hrd hpwr hin
  obtain ⟨n, ht⟩ := tracks_feed plan (pairs bufs.flatten) (pairs bufs.flatten) w 0 h0
    (fun _ => by simp [hfp])
  have hN1 := (feed_N plan (pairs bufs.flatten) w).1
  refine ⟨_, _, n, fft_buffers_eq plan bufs w h0.wf heven, ht.rd_eq, ?_, ?_, ?_⟩
  · have := ht.inside
    rw [hN1] at this
    omega
  · rw [ht.wf.pwr_len, hN1]
  · intro i hi
    have := ht.pwr_eq i (by rw [hN1]; exact hi)
    rw [hN1] at this
    exact this

/-- Witness for C1: a freshly constructed datastore with `N = 2`, two blocks of two
samples in one buffer, `plan` the identity. -/
theorem pwr_eq_sum_of_block_powers_witness :
    ∃ (w1 : Worker Int) (logs : List (List Nat)) (n : Nat),
      fft_buffers (fun inbuf i => inbuf.getD i (0, 0)) [[128, 127, 129, 127, 130, 127, 131, 127]]
          (Thread.start (Datastore.Datastore 2 8 5 2)).toWorker =
        .ok (w1, logs) ∧
      w1.data.repeats_done = (n : Int) ∧
      n * (Thread.start (Datastore.Datastore 2 8 5 2 : Datastore Int)).toWorker.data.N ≤
        (pairs [[128, 127, 129, 127, 130, 127, 131, 127]].flatten).length ∧
      w1.data.pwr.length = (Thread.start (Datastore.Datastore 2 8 5 2 : Datastore Int)).toWorker.data.N ∧
      ∀ i, i < (Thread.start (Datastore.Datastore 2 8 5 2 : Datastore Int)).toWorker.data.N →
        w1.data.pwr[i]? = some (powerSum (fun inbuf i => inbuf.getD i (0, 0))
          (Thread.start (Datastore.Datastore 2 8 5 2 : Datastore Int)).toWorker.data.N
          (pairs [[128, 127, 129, 127, 130, 127, 131, 127]].flatten) i n) :=
  pwr_eq_sum_of_block_powers _ [[128, 127, 129, 127, 130, 127, 131, 127]] _
    (by decide) rfl rfl rfl rfl (by decide)

/-- C2 as stated fails: with `N = 3` and input `[0, 1, 0]`, bin 0 of the transform of the
sign-adjusted input is `-1`, while bin `(0 + 3/2) % 3 = 1` of the transform of the input
is `exp(-2πi/3)`. -/
theorem dft_shift_fails_for_three :
    dft (Complex.exp (-(2 * Real.pi * Complex.I) / (3 : ℕ))) (alternate [0, 1, 0]) 0 ≠
      dft (Complex.exp (-(2 * Real.pi * Complex.I) / (3 : ℕ))) [0, 1, 0] ((0 + 3 / 2) % 3) := by
  intro h
  have h3 := twiddle_pow_N 3 (by norm_num)
  simp [dft, alternate, List.range_succ, multiplier] at h
  simp only [Nat.cast_ofNat] at h3
  rw [← h] at h3
  norm_num at h3

/-- C2, amended. In exact complex arithmetic, for `N = 1` or `N` even and every input `x`
of length `N`, every bin `i` of the transform of the input multiplied by the worker's
alternating sign equals bin `(i + N/2) mod N` of the transform of `x`. -/
theorem dft_alternating_eq_shift (N : Nat) (x : List ℂ) (i : Nat) (hN : N = 1 ∨ N % 2 = 0)
    (hpos : 1 ≤ N) (hx : x.length = N) :
    dft (Complex.exp (-(2 * Real.pi * Complex.I) / N)) (alternate x) i =
      dft (Complex.exp (-(2 * Real.pi * Complex.I) / N)) x ((i + N / 2) % N) := by
  subst hx
  apply dft_alternate
  · exact twiddle_pow_N _ hpos
  · intro n hn
    rcases hN with h1 | h2
    · have : n = 0 := by omega
      subst this
      simp [multiplier]
    · rw [pow_mul', twiddle_pow_half _ hpos h2, multiplier_eq_neg_one_pow]
      push_cast
      rfl

/-- Witness for C2: four samples, bin 1. -/
theorem dft_alternating_eq_shift_witness :
    dft (Complex.exp (-(2 * Real.pi * Complex.I) / (4 : ℕ))) (alternate [1, 2, 3, 4]) 1 =
      dft (Complex.exp (-(2 * Real.pi * Complex.I) / (4 : ℕ))) [1, 2, 3, 4] ((1 + 4 / 2) % 4) :=
  dft_alternating_eq_shift 4 [1, 2, 3, 4] 1 (Or.inr (by decide)) (by decide) rfl

/-- C3 as stated fails: with `N = 1` and `repeats = 1`, of a buffer of four bytes only the
bytes at indices 0 and 1 are read; the bytes at 2 and 3 never are. -/
theorem bytes_after_last_repeat_unread :
    (fft_buffers (fun _ _ => ((0 : Int), (0 : Int))) [[127, 127, 127, 127]]
        (Thread.start (Datastore.Datastore 1 4 1 1)).toWorker).map Prod.snd = .ok [[0, 1]] ∧
      [[0, 1]] ≠ [[127, 127, 127, 127]].map (fun b : List Nat => List.range b.length) := by
  constructor
  · rfl
  · decide

/-- C3, amended. For a worker with `fft_pointer < N` and workspaces of length `N`, and every
sequence of even-length buffers: the drain never faults, and the worker reads exactly the
first `2 * W` bytes of the concatenated buffers, each once and in order, where
`W = max (repeats - repeats_done) 0 * N - fft_pointer` is the number of pairs it still
takes before `repeats_done` reaches `repeats`: from buffer `k` it reads the bytes at
indices `0, ..., m - 1` with `m` the smaller of the size of the buffer and `2 * W` less the
total size of the buffers before it, and no other byte.  Hence if `repeats_done` is still
below `repeats` at the end, every byte of every buffer was read, and from a state where
`repeats_done` is not below `repeats` no byte is read. -/
theorem reads_each_byte_once_until_done (plan : List (Int × Int) → Nat → P × P)
    (bufs : List (List Nat)) (w : Worker P) (hwf : w.WF)
    (heven : ∀ b ∈ bufs, b.length % 2 = 0) :
    ∃ (w1 : Worker P) (logs : List (List Nat)),
      fft_buffers plan bufs w = .ok (w1, logs) ∧
      logs.length = bufs.length ∧
      (∀ k, k < bufs.length →
        logs[k]? = some (List.range (min (bufs.getD k []).length
          (2 * ((w.data.repeats - w.data.repeats_done).toNat * w.data.N - w.fft_pointer) -
            (bufs.take k).flatten.length)))) ∧
      (w1.data.repeats_done < w1.data.repeats →
        logs = bufs.map (fun b => List.range b.length)) ∧
      (¬ w.data.repeats_done < w.data.repeats → logs = bufs.map (fun _ => [])) :=
  ⟨_, _, fft_buffers_eq plan bufs w hwf heven, readLogs_length plan bufs w,
    fun k hk => readLogs_exact plan bufs w k hwf heven hk,
    readLogs_all plan bufs w heven, readLogs_done plan bufs w⟩

/-- Witness for C3: `N = 2`, `repeats = 1`, so two pairs are wanted; the first buffer gives
one, and of the second buffer only bytes 0 and 1 are read. -/
theorem reads_each_byte_once_until_done_witness :
    ∃ (w1 : Worker Int) (logs : List (List Nat)),
      fft_buffers (fun inbuf i => inbuf.getD i (0, 0)) [[128, 127], [129, 127, 130, 127]]
          (Thread.start (Datastore.Datastore 2 4 1 2)).toWorker = .ok (w1, logs) ∧
      logs.length = 2 ∧
      logs[0]? = some [0, 1] ∧
      logs[1]? = some [0, 1] := by
  obtain ⟨w1, logs, h1, h2, h3, _, _⟩ :=
    reads_each_byte_once_until_done (fun inbuf i => inbuf.getD i (0, 0))
      [[128, 127], [129, 127, 130, 127]]
      (Thread.start (Datastore.Datastore 2 4 1 2 : Datastore Int)).toWorker
      ⟨by decide, by decide, by decide⟩ (by decide)
  exact ⟨w1, logs, h1, h2, h3 0 (by decide), h3 1 (by decide)⟩

/-- C4 as stated fails: `repeats` is a signed 64-bit integer, and a datastore constructed
with `repeats = -1` starts with `repeats_done = 0 > repeats`. -/
theorem repeats_done_exceeds_negative_repeats :
    ¬ ((Datastore.Datastore 4 8 (-1) 2 : Datastore Int).repeats_done ≤
        (Datastore.Datastore 4 8 (-1) 2 : Datastore Int).repeats) := by
  decide

/-- C4, amended. For a datastore constructed with any value of `repeats`, in every state the
worker reaches (after construction, after each of its steps, whatever other threads do to
the queues and the flag): `repeats` is the constructed value, `0 ≤ repeats_done`, no worker
step decreases `repeats_done`, and `repeats_done ≤ repeats` provided `repeats ≥ 0`. -/
theorem repeats_done_le_repeats (plan : List (Int × Int) → Nat → P × P) (N buf_length : Nat)
    (repeats : Int) (buffers : Nat) (t : Thread P)
    (hr : WorkerReach plan N buf_length repeats buffers t) :
    t.data.repeats = repeats ∧ 0 ≤ t.data.repeats_done ∧
      (∀ t1, fft_step plan t = .ok t1 → t.data.repeats_done ≤ t1.data.repeats_done) ∧
      (0 ≤ repeats → t.data.repeats_done ≤ t.data.repeats) := by
  refine ⟨?_, ?_, fun t1 h => (fft_step_repeats plan t t1 h).2.1, fun hrep => ?_⟩
  · induction hr with
    | start => rfl
    | step _ hs ih => exact (fft_step_repeats plan _ _ hs).1.trans ih
    | shared _ _ _ _ ih => exact ih
  · induction hr with
    | start => exact Int.le_refl _
    | step _ hs ih => exact Int.le_trans ih (fft_step_repeats plan _ _ hs).2.1
    | shared _ _ _ _ ih => exact ih
  · have key : t.data.repeats = repeats ∧ t.data.repeats_done ≤ t.data.repeats := by
      induction hr with
      | start => exact ⟨rfl, hrep⟩
      | step _ hs ih =>
        have h := fft_step_repeats plan _ _ hs
        exact ⟨h.1.trans ih.1, by rw [h.1]; exact h.2.2 ih.2⟩
      | shared _ _ _ _ ih => exact ih
    exact key.2

/-- Witness for C4: `N = 2`, `repeats = 3`.  The producer queues a buffer of two pairs, the
worker pops it, drains it with one transform (`repeats_done` becomes 1) and recycles it;
the producer queues a second buffer and the worker pops it.  In that state
`repeats_done = 1 ≤ 3`, and the step that follows is a drain with a second transform. -/
theorem repeats_done_le_repeats_witness :
    ∃ t : Thread Int,
      t =
        ({ data :=
             { N := 2, buffers := 2, repeats := 3, repeats_done := 1,
               queue_histogram := [0, 0, 0], pwr := [1, 4],
               empty_buffers := [⟨0, [128, 127, 129, 127]⟩], occupied_buffers := [],
               acquisition_finished := false, inbuf := [(1, 0), (-2, 0)],
               outbuf := [(1, 0), (-2, 0)] },
           fft_pointer := 0, phase := .draining ⟨1, [130, 127, 127, 130]⟩,
           drained := [⟨0, [128, 127, 129, 127]⟩] } : Thread Int) ∧
      t.data.repeats = 3 ∧
      0 ≤ t.data.repeats_done ∧
      (∀ t1, fft_step (fun inbuf i => inbuf.getD i (0, 0)) t = .ok t1 →
        t.data.repeats_done ≤ t1.data.repeats_done) ∧
      t.data.repeats_done ≤ t.data.repeats := by
  have h := repeats_done_le_repeats (fun inbuf i => inbuf.getD i (0, 0)) 2 4 3 2
        ({ data :=
             { N := 2, buffers := 2, repeats := 3, repeats_done := 1,
               queue_histogram := [0, 0, 0], pwr := [1, 4],
               empty_buffers := [⟨0, [128, 127, 129, 127]⟩], occupied_buffers := [],
               acquisition_finished := false, inbuf := [(1, 0), (-2, 0)],
               outbuf := [(1, 0), (-2, 0)] },
           fft_pointer := 0, phase := .draining ⟨1, [130, 127, 127, 130]⟩,
           drained := [⟨0, [128, 127, 129, 127]⟩] } : Thread Int)
    (WorkerReach.step
      (WorkerReach.shared [⟨0, [128, 127, 129, 127]⟩] [⟨1, [130, 127, 127, 130]⟩] false
        (WorkerReach.step
          (WorkerReach.step
            (WorkerReach.step
              (WorkerReach.shared [⟨1, [0, 0, 0, 0]⟩] [⟨0, [128, 127, 129, 127]⟩] false
                WorkerReach.start)
              rfl)
            rfl)
          rfl))
      rfl)
  exact ⟨_, rfl, h.1, h.2.1, h.2.2.1, h.2.2.2 (by decide)⟩

/-- C5 as stated fails: on a datastore constructed with two buffers, the producer pops the
front of the empty pool.  In the state reached, with the producer filling that buffer
outside the lock, one buffer is in the empty pool, none is in the occupied queue and the
worker holds none: the sum is 1, not `buffers = 2`. -/
theorem pool_sum_short_while_producer_fills :
    ∃ s : System Int,
      s =
        ({ thread :=
             { data :=
                 { N := 2, buffers := 2, repeats := 3, repeats_done := 0,
                   queue_histogram := [0, 0, 0], pwr := [0, 0],
                   empty_buffers := [⟨1, [0, 0, 0, 0]⟩], occupied_buffers := [],
                   acquisition_finished := false, inbuf := [(0, 0), (0, 0)],
                   outbuf := [(0, 0), (0, 0)] },
               fft_pointer := 0, phase := .waiting, drained := [] },
           filling := some ⟨0, [0, 0, 0, 0]⟩ } : System Int) ∧
      Reachable (fun inbuf i => inbuf.getD i (0, 0)) 2 4 3 2 s ∧
      s.thread.data.buffers = 2 ∧
      s.thread.data.empty_buffers.length + s.thread.data.occupied_buffers.length +
        s.thread.phase.held.length = 1 :=
  ⟨_, rfl, Reachable.step Reachable.start (Step.pop rfl rfl), rfl, rfl⟩

/-- C5, amended. In every state reachable from a constructed datastore by worker steps (pop
the front of occupied, drain, push to the back of empty) and producer steps (pop the
front of empty, fill, push to the back of occupied, raise the flag): the sizes of the
empty pool and of the occupied queue, plus 1 when the worker holds a buffer, plus 1 when
the producer holds a buffer it has popped and not yet pushed, add up to `buffers`; so the
first three add up to `buffers` when the producer holds no buffer and to `buffers - 1`
when it holds one; and no buffer handle occurs twice in the two queues, the worker's
hands and the producer's hands. -/
theorem buffer_pool_conserved (plan : List (Int × Int) → Nat → P × P) (N buf_length : Nat)
    (repeats : Int) (buffers : Nat) (s : System P)
    (hr : Reachable plan N buf_length repeats buffers s) :
    s.thread.data.buffers = buffers ∧
      s.thread.data.empty_buffers.length + s.thread.data.occupied_buffers.length +
          s.thread.phase.held.length + s.held.length = s.thread.data.buffers ∧
      s.thread.phase.held.length ≤ 1 ∧
      s.held.length ≤ 1 ∧
      (s.filling = none →
        s.thread.data.empty_buffers.length + s.thread.data.occupied_buffers.length +
          s.thread.phase.held.length = s.thread.data.buffers) ∧
      (∀ b, s.filling = some b →
        s.thread.data.empty_buffers.length + s.thread.data.occupied_buffers.length +
          s.thread.phase.held.length + 1 = s.thread.data.buffers) ∧
      s.handles.Nodup := by
  have key : s.thread.data.buffers = buffers ∧ s.handles.Perm (List.range buffers) := by
    induction hr with
    | start =>
      refine ⟨rfl, ?_⟩
      simp only [System.handles, System.held, System.start, Option.toList, List.map_nil,
        List.append_nil]
      rw [start_handles]
    | step _ hs ih =>
      have h := step_handles plan _ _ hs
      exact ⟨h.2.trans ih.1, h.1.trans ih.2⟩
  have hsum : s.thread.data.empty_buffers.length + s.thread.data.occupied_buffers.length +
      s.thread.phase.held.length + s.held.length = s.thread.data.buffers := by
    have h := key.2.length_eq
    simp only [System.handles, Thread.handles, List.length_map, List.length_append,
      List.length_range] at h
    rw [key.1]
    exact h
  refine ⟨key.1, hsum, ?_, ?_, ?_, ?_, key.2.nodup_iff.mpr (List.nodup_range buffers)⟩
  · cases s.thread.phase <;> simp [Phase.held]
  · unfold System.held
    cases hfl : s.filling <;> simp
  · intro hfl
    have h0 : s.held.length = 0 := by simp [System.held, hfl]
    omega
  · intro b hfl
    have h1 : s.held.length = 1 := by simp [System.held, hfl]
    omega

/-- Witness for C5: two buffers.  The producer pops buffer 0, fills and pushes it, and pops
buffer 1; the worker pops buffer 0 and drains it with one transform.  Both queues are
empty: the worker holds buffer 0, about to recycle it, and the producer holds buffer 1. -/
theorem buffer_pool_conserved_witness :
    ∃ s : System Int,
      s =
        ({ thread :=
             { data :=
                 { N := 2, buffers := 2, repeats := 3, repeats_done := 1,
                   queue_histogram := [0, 0, 0], pwr := [1, 4],
                   empty_buffers := [], occupied_buffers := [],
                   acquisition_finished := false, inbuf := [(1, 0), (-2, 0)],
                   outbuf := [(1, 0), (-2, 0)] },
               fft_pointer := 0, phase := .recycling ⟨0, [128, 127, 129, 127]⟩,
               drained := [⟨0, [128, 127, 129, 127]⟩] },
           filling := some ⟨1, [0, 0, 0, 0]⟩ } : System Int) ∧
      s.thread.data.buffers = 2 ∧
      s.thread.data.empty_buffers.length + s.thread.data.occupied_buffers.length +
        s.thread.phase.held.length + s.held.length = s.thread.data.buffers ∧
      s.thread.phase.held.length ≤ 1 ∧
      s.held.length ≤ 1 ∧
      s.thread.data.empty_buffers.length + s.thread.data.occupied_buffers.length +
        s.thread.phase.held.length + 1 = s.thread.data.buffers ∧
      s.handles.Nodup := by
  have h := buffer_pool_conserved (fun inbuf i => inbuf.getD i (0, 0)) 2 4 3 2
        ({ thread :=
             { data :=
                 { N := 2, buffers := 2, repeats := 3, repeats_done := 1,
                   queue_histogram := [0, 0, 0], pwr := [1, 4],
                   empty_buffers := [], occupied_buffers := [],
                   acquisition_finished := false, inbuf := [(1, 0), (-2, 0)],
                   outbuf := [(1, 0), (-2, 0)] },
               fft_pointer := 0, phase := .recycling ⟨0, [128, 127, 129, 127]⟩,
               drained := [⟨0, [128, 127, 129, 127]⟩] },
           filling := some ⟨1, [0, 0, 0, 0]⟩ } : System Int)
    (Reachable.step
      (Reachable.step
        (Reachable.step
          (Reachable.step
            (Reachable.step
              (Reachable.step Reachable.start (Step.pop rfl rfl))
              (Step.fill [128, 127, 129, 127] rfl))
            (Step.push rfl))
          (Step.pop rfl rfl))
        (Step.worker rfl))
      (Step.worker rfl))
  exact ⟨_, rfl, h.1, h.2.1, h.2.2.1, h.2.2.2.1, h.2.2.2.2.2.1 _ rfl, h.2.2.2.2.2.2⟩

/-- C6. For a worker with `fft_pointer < N` (so `N ≥ 1`), every `repeats` and any two
sequences of even-length buffers with the same concatenated bytes, the worker ends in the
same state (`pwr`, `repeats_done`, fill index, input and output workspace); the same
state is reached when all the bytes arrive in one buffer. -/
theorem buffer_split_irrelevant (plan : List (Int × Int) → Nat → P × P)
    (bufs1 bufs2 : List (List Nat)) (w : Worker P) (hwf : w.WF)
    (h1 : ∀ b ∈ bufs1, b.length % 2 = 0) (h2 : ∀ b ∈ bufs2, b.length % 2 = 0)
    (hsame : bufs1.flatten = bufs2.flatten) :
    ∃ (w1 : Worker P) (logs1 logs2 logs3 : List (List Nat)),
      fft_buffers plan bufs1 w = .ok (w1, logs1) ∧
      fft_buffers plan bufs2 w = .ok (w1, logs2) ∧
      fft_buffers plan [bufs1.flatten] w = .ok (w1, logs3) := by
  refine ⟨feed plan w (pairs bufs1.flatten), readLogs plan w bufs1, readLogs plan w bufs2,
    readLogs plan w [bufs1.flatten], fft_buffers_eq plan bufs1 w hwf h1, ?_, ?_⟩
  · rw [hsame]
    exact fft_buffers_eq plan bufs2 w hwf h2
  · have h := fft_buffers_eq plan [bufs1.flatten] w hwf (by
      intro b hb
      rw [List.mem_singleton] at hb
      rw [hb]
      exact flatten_length_even bufs1 h1)
    simpa using h

/-- Witness for C6: a block of two samples split across two buffers, or in one. -/
theorem buffer_split_irrelevant_witness :
    ∃ (w1 : Worker Int) (logs1 logs2 logs3 : List (List Nat)),
      fft_buffers (fun inbuf i => inbuf.getD i (0, 0)) [[128, 127], [129, 127, 130, 127]]
          (Thread.start (Datastore.Datastore 2 4 3 2)).toWorker = .ok (w1, logs1) ∧
      fft_buffers (fun inbuf i => inbuf.getD i (0, 0)) [[128, 127, 129, 127], [130, 127]]
          (Thread.start (Datastore.Datastore 2 4 3 2)).toWorker = .ok (w1, logs2) ∧
      fft_buffers (fun inbuf i => inbuf.getD i (0, 0))
          [[[128, 127], [129, 127, 130, 127]].flatten]
          (Thread.start (Datastore.Datastore 2 4 3 2)).toWorker = .ok (w1, logs3) :=
  buffer_split_irrelevant _ [[128, 127], [129, 127, 130, 127]] [[128, 127, 129, 127], [130, 127]]
    _ ⟨by decide, by decide, by decide⟩ (by decide) (by decide) (by decide)

/-- C7. When `repeats_done` equals `repeats`, one pass of the worker through its loop body
takes the front buffer `b` of the occupied queue, leaves `pwr`, `repeats_done`, the fill
index and the input workspace as they are, and appends `b` to the back of the empty pool.
The state after the pass satisfies the hypothesis again. -/
theorem no_transform_after_last_repeat (plan : List (Int × Int) → Nat → P × P) (t : Thread P)
    (b : Buffer) (rest : List Buffer) (hph : t.phase = .waiting)
    (hocc : t.data.occupied_buffers = b :: rest)
    (hrd : t.data.repeats_done = t.data.repeats) :
    ∃ t1 : Thread P, fft_iteration plan t = .ok t1 ∧
      t1.data.pwr = t.data.pwr ∧ t1.data.repeats_done = t.data.repeats_done ∧
      t1.data.repeats = t.data.repeats ∧
      t1.fft_pointer = t.fft_pointer ∧ t1.data.inbuf = t.data.inbuf ∧
      t1.data.empty_buffers = t.data.empty_buffers ++ [b] ∧
      t1.data.occupied_buffers = rest ∧ t1.phase = .waiting := by
  have hnot : ¬ (t.toWorker.withQueues t.data.empty_buffers rest
      t.data.acquisition_finished).data.repeats_done <
      (t.toWorker.withQueues t.data.empty_buffers rest
      t.data.acquisition_finished).data.repeats := by
    show ¬ t.data.repeats_done < t.data.repeats
    rw [hrd]
    exact Int.lt_irrefl _
  have hdrain : fft_step plan
      { toWorker := t.toWorker.withQueues t.data.empty_buffers rest t.data.acquisition_finished
        phase := .draining b
        drained := t.drained } =
      .ok { toWorker := t.toWorker.withQueues t.data.empty_buffers rest
              t.data.acquisition_finished
            phase := .recycling b
            drained := t.drained ++ [b] } := by
    unfold fft_step
    simp only [fft_drain_done plan b.bytes _ hnot]
  refine ⟨{ toWorker := t.toWorker.withQueues (t.data.empty_buffers ++ [b]) rest
              t.data.acquisition_finished
            phase := .waiting
            drained := t.drained ++ [b] }, ?_, rfl, rfl, rfl, rfl, rfl, rfl, rfl, rfl⟩
  unfold fft_iteration
  rw [fft_step_take plan t b rest hph hocc]
  simp only []
  rw [hdrain]
  simp only []
  rw [fft_step_recycle plan
    { toWorker := t.toWorker.withQueues t.data.empty_buffers rest t.data.acquisition_finished
      phase := .recycling b
      drained := t.drained ++ [b] } b rfl]
  rfl

/-- Witness for C7: `repeats = 0`, a buffer of three bytes at the front of the queue. -/
theorem no_transform_after_last_repeat_witness :
    ∃ t1 : Thread Int,
      fft_iteration (fun inbuf i => inbuf.getD i (0, 0))
        { data := { N := 2, buffers := 1, repeats := 0, repeats_done := 0,
                    queue_histogram := [0, 0], pwr := [0, 0], empty_buffers := [],
                    occupied_buffers := [⟨0, [128, 127, 129]⟩], acquisition_finished := false,
                    inbuf := [(0, 0), (0, 0)], outbuf := [(0, 0), (0, 0)] }
          fft_pointer := 0, phase := .waiting, drained := [] } = .ok t1 ∧
      t1.data.pwr = [0, 0] ∧ t1.data.repeats_done = 0 ∧ t1.data.repeats = 0 ∧
      t1.fft_pointer = 0 ∧ t1.data.inbuf = [(0, 0), (0, 0)] ∧
      t1.data.empty_buffers = [] ++ [⟨0, [128, 127, 129]⟩] ∧
      t1.data.occupied_buffers = [] ∧ t1.phase = .waiting :=
  no_transform_after_last_repeat _ _ ⟨0, [128, 127, 129]⟩ [] rfl rfl rfl

/-- C8. One pass of the worker through its loop body with a non-empty occupied queue
whose front is `b`.  Whenever the pass comes back: the buffer taken and drained is `b`,
the occupied queue is left with the other buffers in their order, and `b` is appended at
the back of the empty pool behind its previous contents, in their order.  And the pass
does come back when the worker is well-formed and `b` has even length. -/
theorem consumer_fifo (plan : List (Int × Int) → Nat → P × P) (t : Thread P) (b : Buffer)
    (rest : List Buffer) (hph : t.phase = .waiting) (hocc : t.data.occupied_buffers = b :: rest) :
    (∀ t1 : Thread P, fft_iteration plan t = .ok t1 →
        t1.data.occupied_buffers = rest ∧
        t1.data.empty_buffers = t.data.empty_buffers ++ [b] ∧
        t1.drained = t.drained ++ [b] ∧
        t1.phase = .waiting ∧
        ∃ dr : Drain P,
          fft_drain plan b.bytes (t.toWorker.withQueues t.data.empty_buffers rest
            t.data.acquisition_finished) = .ok dr ∧
          t1.toWorker = dr.toWorker.withQueues (t.data.empty_buffers ++ [b]) rest
            t.data.acquisition_finished) ∧
      (t.toWorker.WF → b.bytes.length % 2 = 0 →
        ∃ t1 : Thread P, fft_iteration plan t = .ok t1) := by
  constructor
  · intro t1 h
    obtain ⟨dr, hd, ht1⟩ := fft_iteration_inv plan t t1 b rest hph hocc h
    subst ht1
    exact ⟨rfl, rfl, rfl, rfl, dr, hd, rfl⟩
  · intro hwf heven
    exact ⟨_, fft_iteration_eq plan t b rest hph hocc hwf heven⟩

/-- Witness for C8: two buffers queued, one in the empty pool. -/
theorem consumer_fifo_witness :
    ∃ t1 : Thread Int,
      fft_iteration (fun inbuf i => inbuf.getD i (0, 0))
        { data := { N := 2, buffers := 3, repeats := 4, repeats_done := 0,
                    queue_histogram := [0, 0, 0, 0], pwr := [0, 0],
                    empty_buffers := [⟨2, [0, 0]⟩],
                    occupied_buffers := [⟨0, [128, 127]⟩, ⟨1, [129, 127]⟩],
                    acquisition_finished := false,
                    inbuf := [(0, 0), (0, 0)], outbuf := [(0, 0), (0, 0)] }
          fft_pointer := 0, phase := .waiting, drained := [] } = .ok t1 :=
  (consumer_fifo _ _ ⟨0, [128, 127]⟩ [⟨1, [129, 127]⟩] rfl rfl).2
    ⟨by decide, by decide, by decide⟩ (by decide)

/-- C9. For a worker that has not left its loop: if it is in its waiting state with the
occupied queue empty and `acquisition_finished` set, its step is the exit, which changes
nothing but the place in the code (so neither `pwr`, `repeats_done` nor a queue); and a
step that ends in the exit is taken only from that situation. -/
theorem worker_exit_condition (plan : List (Int × Int) → Nat → P × P) (t : Thread P)
    (hnd : t.phase ≠ .done) :
    (t.phase = .waiting ∧ t.data.occupied_buffers = [] ∧ t.data.acquisition_finished = true →
        fft_step plan t = .ok { t with phase := .done }) ∧
      (∀ t1, fft_step plan t = .ok t1 → t1.phase = .done →
        t.phase = .waiting ∧ t.data.occupied_buffers = [] ∧
          t.data.acquisition_finished = true ∧ t1 = { t with phase := .done }) := by
  constructor
  · rintro ⟨hph, hocc, hfin⟩
    unfold fft_step
    rw [hph]
    simp only [hocc, hfin, if_true]
  · intro t1 h hd
    unfold fft_step at h
    split at h
    · next hph =>
      split at h
      · next hocc =>
        split at h
        · next hfin =>
          cases h
          exact ⟨hph, hocc, hfin, rfl⟩
        · cases h
          exact absurd hd hnd
      · cases h
        simp at hd
    · split at h
      · cases h
        simp at hd
      · simp at h
    · cases h
      simp at hd
    · next hph => exact absurd hph hnd

/-- Witness for C9: a waiting worker, empty occupied queue, acquisition finished. -/
theorem worker_exit_condition_witness :
    fft_step (fun inbuf i => inbuf.getD i (0, 0))
        ({ data := { N := 2, buffers := 1, repeats := 4, repeats_done := 1,
                     queue_histogram := [0, 0], pwr := [5, 6], empty_buffers := [⟨0, [1, 2]⟩],
                     occupied_buffers := [], acquisition_finished := true,
                     inbuf := [(1, 2), (0, 0)], outbuf := [(0, 0), (0, 0)] }
           fft_pointer := 1, phase := .waiting, drained := [] } : Thread Int) =
      .ok { data := { N := 2, buffers := 1, repeats := 4, repeats_done := 1,
                      queue_histogram := [0, 0], pwr := [5, 6], empty_buffers := [⟨0, [1, 2]⟩],
                      occupied_buffers := [], acquisition_finished := true,
                      inbuf := [(1, 2), (0, 0)], outbuf := [(0, 0), (0, 0)] }
            fft_pointer := 1, phase := .done, drained := [] } :=
  (worker_exit_condition _ _ (by decide)).1 ⟨rfl, rfl, rfl⟩

/-- C10. With `acquisition_finished` set, a well-formed waiting worker (`N ≥ 1`), an
occupied queue of `k` even-length buffers and no producer step, `fft` returns with any
fuel of at least `3 * k + 2`: the worker has left the loop; it has drained exactly the `k`
buffers, each once and in queue order (the ghost log says so, and its state is the one
lines 64-85 produce on these buffers in that order); the occupied queue is empty and the
`k` buffers are appended to the empty pool in order. -/
theorem drain_then_terminate (plan : List (Int × Int) → Nat → P × P) (t : Thread P) (fuel : Nat)
    (hph : t.phase = .waiting) (hwf : t.toWorker.WF)
    (hfin : t.data.acquisition_finished = true)
    (heven : ∀ b ∈ t.data.occupied_buffers, b.bytes.length % 2 = 0)
    (hfuel : 3 * t.data.occupied_buffers.length + 2 ≤ fuel) :
    ∃ (t1 : Thread P) (w : Worker P) (logs : List (List Nat)),
      fft plan fuel t = .ok t1 ∧
      t1.phase = .done ∧
      t1.drained = t.drained ++ t.data.occupied_buffers ∧
      t1.data.occupied_buffers = [] ∧
      t1.data.empty_buffers = t.data.empty_buffers ++ t.data.occupied_buffers ∧
      fft_buffers plan (t.data.occupied_buffers.map Buffer.bytes) t.toWorker = .ok (w, logs) ∧
      t1.toWorker = w.withQueues (t.data.empty_buffers ++ t.data.occupied_buffers) [] true :=
  ⟨_, _, _, fft_drains_queue plan t.data.occupied_buffers t fuel rfl hph hwf hfin heven hfuel,
    rfl, rfl, rfl, rfl,
    fft_buffers_eq plan _ t.toWorker hwf (by
      intro b hb
      obtain ⟨c, hc, rfl⟩ := List.mem_map.mp hb
      exact heven c hc),
    rfl⟩

/-- Witness for C10: two queued buffers, fuel 8. -/
theorem drain_then_terminate_witness :
    ∃ (t1 : Thread Int) (w : Worker Int) (logs : List (List Nat)),
      fft (fun inbuf i => inbuf.getD i (0, 0)) 8
        { data := { N := 2, buffers := 2, repeats := 4, repeats_done := 0,
                    queue_histogram := [0, 0, 0], pwr := [0, 0], empty_buffers := [],
                    occupied_buffers := [⟨0, [128, 127]⟩, ⟨1, [129, 127]⟩],
                    acquisition_finished := true,
                    inbuf := [(0, 0), (0, 0)], outbuf := [(0, 0), (0, 0)] }
          fft_pointer := 0, phase := .waiting, drained := [] } = .ok t1 ∧
      t1.phase = .done ∧
      t1.drained = [] ++ [⟨0, [128, 127]⟩, ⟨1, [129, 127]⟩] ∧
      t1.data.occupied_buffers = [] ∧
      t1.data.empty_buffers = [] ++ [⟨0, [128, 127]⟩, ⟨1, [129, 127]⟩] ∧
      fft_buffers (fun inbuf i => inbuf.getD i (0, 0))
        (([⟨0, [128, 127]⟩, ⟨1, [129, 127]⟩] : List Buffer).map Buffer.bytes)
        { data := { N := 2, buffers := 2, repeats := 4, repeats_done := 0,
                    queue_histogram := [0, 0, 0], pwr := [0, 0], empty_buffers := [],
                    occupied_buffers := [⟨0, [128, 127]⟩, ⟨1, [129, 127]⟩],
                    acquisition_finished := true,
                    inbuf := [(0, 0), (0, 0)], outbuf := [(0, 0), (0, 0)] }
          fft_pointer := 0 } = .ok (w, logs) ∧
      t1.toWorker = w.withQueues ([] ++ [⟨0, [128, 127]⟩, ⟨1, [129, 127]⟩]) [] true :=
  drain_then_terminate _ _ 8 rfl ⟨by decide, by decide, by decide⟩ rfl (by decide) (by decide)

/-- C11 as stated fails: a waiting worker that finds one buffer in the occupied queue pops
it and leaves `queue_histogram` at `[0, 0, 0]`; entry 1 is not incremented. -/
theorem histogram_not_incremented :
    (fft_step (fun inbuf i => inbuf.getD i (0, 0))
        ({ data := { N := 2, buffers := 2, repeats := 4, repeats_done := 0,
                     queue_histogram := [0, 0, 0], pwr := [0, 0],
                     empty_buffers := [⟨1, [0, 0]⟩],
                     occupied_buffers := [⟨0, [128, 127]⟩],
                     acquisition_finished := false,
                     inbuf := [(0, 0), (0, 0)], outbuf := [(0, 0), (0, 0)] }
           fft_pointer := 0, phase := .waiting, drained := [] } : Thread Int)).map
        (fun t => (t.data.queue_histogram, t.phase)) =
      .ok ([0, 0, 0], .draining ⟨0, [128, 127]⟩) ∧
      ([0, 0, 0] : List Nat) ≠ [0, 1, 0] := by
  constructor
  · rfl
  · decide

/-- C11, amended. The worker never writes `queue_histogram`: every step of the worker
leaves every counter as it was; and the counters never influence the worker: with any
other counters in place the step is the same step, with those counters left in place. -/
theorem worker_ignores_histogram (plan : List (Int × Int) → Nat → P × P) (t t1 : Thread P)
    (h : List Nat) (hstep : fft_step plan t = .ok t1) :
    t1.data.queue_histogram = t.data.queue_histogram ∧
      fft_step plan (t.withHistogram h) = .ok (t1.withHistogram h) := by
  refine ⟨fft_step_histogram_eq plan t t1 hstep, ?_⟩
  rw [fft_step_histogram, hstep]
  rfl

/-- Witness for C11: the step that drains a buffer of two samples. -/
theorem worker_ignores_histogram_witness :
    ({ data := { N := 2, buffers := 1, repeats := 4, repeats_done := 1,
                 queue_histogram := [0, 0], pwr := [10, 9],
                 empty_buffers := [], occupied_buffers := [],
                 acquisition_finished := false,
                 inbuf := [(1, 0), (-2, 0)], outbuf := [(1, 0), (-2, 0)] }
       fft_pointer := 0, phase := .recycling ⟨0, [128, 127, 129, 127]⟩,
       drained := [⟨0, [128, 127, 129, 127]⟩] } : Thread Int).data.queue_histogram =
      ({ data := { N := 2, buffers := 1, repeats := 4, repeats_done := 0,
                   queue_histogram := [0, 0], pwr := [9, 5],
                   empty_buffers := [], occupied_buffers := [],
                   acquisition_finished := false,
                   inbuf := [(0, 0), (0, 0)], outbuf := [(0, 0), (0, 0)] }
         fft_pointer := 0, phase := .draining ⟨0, [128, 127, 129, 127]⟩,
         drained := [] } : Thread Int).data.queue_histogram ∧
      fft_step (fun inbuf i => inbuf.getD i (0, 0))
        (({ data := { N := 2, buffers := 1, repeats := 4, repeats_done := 0,
                      queue_histogram := [0, 0], pwr := [9, 5],
                      empty_buffers := [], occupied_buffers := [],
                      acquisition_finished := false,
                      inbuf := [(0, 0), (0, 0)], outbuf := [(0, 0), (0, 0)] }
            fft_pointer := 0, phase := .draining ⟨0, [128, 127, 129, 127]⟩,
            drained := [] } : Thread Int).withHistogram [7, 3]) =
      .ok (({ data := { N := 2, buffers := 1, repeats := 4, repeats_done := 1,
                        queue_histogram := [0, 0], pwr := [10, 9],
                        empty_buffers := [], occupied_buffers := [],
                        acquisition_finished := false,
                        inbuf := [(1, 0), (-2, 0)], outbuf := [(1, 0), (-2, 0)] }
              fft_pointer := 0, phase := .recycling ⟨0, [128, 127, 129, 127]⟩,
              drained := [⟨0, [128, 127, 129, 127]⟩] } : Thread Int).withHistogram [7, 3]) :=
  worker_ignores_histogram _ _ _ [7, 3] (by rfl)

/-- C16. From a fresh worker with `N ≥ 1`, after any sequence of even-length buffers whose
concatenated pairs are `S`: with `n = repeats_done` and `fp` the fill index, `fp < N`, the
worker has taken the pairs before position `n * N + fp` (all of `S` while `repeats_done` is
below `repeats`, so the fill index runs on across buffer boundaries and restarts at 0
with each transform), and every cell `j < N` of the input workspace holds what the last
write at fill index `j` put there, which is `((I - 127) * s, (Q - 127) * s)` with
`s = 1` for even `j` and `s = -1` for odd `j`, where `(I, Q)` is the pair of the stream
that was next when the fill index was `j`: the pair at position `n * N + j` for `j < fp`
(block `n`, being assembled), and the pair at position `(n - 1) * N + j` for `j ≥ fp`
(block `n - 1`, transformed last; this covers the write at index `N - 1` that completes a
block).  Before the first transform the cells `j ≥ fp` are as the constructor left them.
As any prefix of the stream can be the whole of it, this states the value of every
write. -/
theorem sample_conversion (plan : List (Int × Int) → Nat → P × P)
    (bufs : List (List Nat)) (w : Worker P) (hN : 1 ≤ w.data.N) (hfp : w.fft_pointer = 0)
    (hrd : w.data.repeats_done = 0) (hpwr : w.data.pwr = List.replicate w.data.N 0)
    (hin : w.data.inbuf.length = w.data.N) (heven : ∀ b ∈ bufs, b.length % 2 = 0) :
    ∃ (w1 : Worker P) (logs : List (List Nat)) (n : Nat),
      fft_buffers plan bufs w = .ok (w1, logs) ∧
      w1.data.repeats_done = (n : Int) ∧
      w1.fft_pointer < w.data.N ∧
      n * w.data.N + w1.fft_pointer ≤ (pairs bufs.flatten).length ∧
      (w1.data.repeats_done < w.data.repeats →
        n * w.data.N + w1.fft_pointer = (pairs bufs.flatten).length) ∧
      (∀ j, j < w1.fft_pointer →
        ∃ I Q : Nat, (pairs bufs.flatten)[n * w.data.N + j]? = some (I, Q) ∧
          w1.data.inbuf[j]? =
            some (((I : Int) - 127) * (if j % 2 = 0 then 1 else -1),
                  ((Q : Int) - 127) * (if j % 2 = 0 then 1 else -1))) ∧
      (∀ j, w1.fft_pointer ≤ j → j < w.data.N → 1 ≤ n →
        ∃ I Q : Nat, (pairs bufs.flatten)[(n - 1) * w.data.N + j]? = some (I, Q) ∧
          w1.data.inbuf[j]? =
            some (((I : Int) - 127) * (if j % 2 = 0 then 1 else -1),
                  ((Q : Int) - 127) * (if j % 2 = 0 then 1 else -1))) ∧
      (∀ j, w1.fft_pointer ≤ j → j < w.data.N → n = 0 →
        w1.data.inbuf[j]? = w.data.inbuf[j]?) := by
  have h0 := fresh_tracks plan (pairs bufs.flatten) w hN hfp hrd hpwr hin
  have hN1 := (feed_N plan (pairs bufs.flatten) w).1
  have key : ∃ n, Tracks plan (pairs bufs.flatten) (feed plan w (pairs bufs.flatten)) n ∧
      ((feed plan w (pairs bufs.flatten)).data.repeats_done < w.data.repeats →
        n * w.data.N + (feed plan w (pairs bufs.flatten)).fft_pointer =
          (pairs bufs.flatten).length) := by
    by_cases hrep : 0 ≤ w.data.repeats
    · obtain ⟨n, ht, hall, _⟩ := fresh_feed plan (pairs bufs.flatten) w hN hfp hrd hpwr hin hrep
      exact ⟨n, ht, hall⟩
    · have hdone : ¬ w.data.repeats_done < w.data.repeats := by rw [hrd]; omega
      rw [feed_done plan _ w hdone]
      exact ⟨0, h0, fun h => absurd h hdone⟩
  obtain ⟨n, ht, hall⟩ := key
  have hk := retains_feed plan (pairs bufs.flatten) w.data.inbuf (pairs bufs.flatten) w 0 h0
    ⟨fun _ _ _ h => absurd h (by decide), fun _ _ _ _ => rfl⟩ (fun _ => by simp [hfp]) n ht
  have hfpN : (feed plan w (pairs bufs.flatten)).fft_pointer < w.data.N := by
    have := ht.wf.fp_lt
    rw [hN1] at this
    exact this
  have hins := ht.inside
  rw [hN1] at hins
  refine ⟨_, _, n, fft_buffers_eq plan bufs w h0.wf heven, ht.rd_eq, hfpN, hins, hall, ?_, ?_, ?_⟩
  · intro j hj
    have hjN : j < w.data.N := Nat.lt_trans hj hfpN
    have hlt : n * w.data.N + j < (pairs bufs.flatten).length := by omega
    have hb := ht.inbuf_eq j hj
    rw [hN1, block_getElem? _ _ _ _ hjN, List.getElem?_eq_getElem hlt] at hb
    refine ⟨((pairs bufs.flatten)[n * w.data.N + j]).1,
      ((pairs bufs.flatten)[n * w.data.N + j]).2, List.getElem?_eq_getElem hlt, ?_⟩
    rw [hb]
    rfl
  · intro j hj hjN hn
    obtain ⟨m, rfl⟩ : ∃ m, n = m + 1 := ⟨n - 1, by omega⟩
    have hlt : (m + 1 - 1) * w.data.N + j < (pairs bufs.flatten).length := by
      rw [Nat.succ_mul] at hins
      rw [Nat.add_sub_cancel]
      omega
    have hb := hk.prev j hj (by rw [hN1]; exact hjN) hn
    rw [hN1, block_getElem? _ _ _ _ hjN, List.getElem?_eq_getElem hlt] at hb
    refine ⟨((pairs bufs.flatten)[(m + 1 - 1) * w.data.N + j]).1,
      ((pairs bufs.flatten)[(m + 1 - 1) * w.data.N + j]).2, List.getElem?_eq_getElem hlt, ?_⟩
    rw [hb]
    rfl
  · intro j hj hjN hn
    exact hk.first j hj (by rw [hN1]; exact hjN) hn

/-- Witness for C16: `N = 2`, two pairs in two buffers.  The second pair is written at fill
index 1, with sign `-1`, and completes the block: one transform, then fill index 0. -/
theorem sample_conversion_witness :
    ∃ (w1 : Worker Int) (logs : List (List Nat)) (n : Nat),
      fft_buffers (fun inbuf i => inbuf.getD i (0, 0)) [[128, 127], [129, 127]]
          (Thread.start (Datastore.Datastore 2 4 5 2)).toWorker = .ok (w1, logs) ∧
      w1.data.repeats_done = (n : Int) ∧
      w1.fft_pointer < 2 ∧
      n * 2 + w1.fft_pointer ≤ (pairs [[128, 127], [129, 127]].flatten).length ∧
      (w1.data.repeats_done < 5 →
        n * 2 + w1.fft_pointer = (pairs [[128, 127], [129, 127]].flatten).length) ∧
      (∀ j, j < w1.fft_pointer →
        ∃ I Q : Nat, (pairs [[128, 127], [129, 127]].flatten)[n * 2 + j]? = some (I, Q) ∧
          w1.data.inbuf[j]? =
            some (((I : Int) - 127) * (if j % 2 = 0 then 1 else -1),
                  ((Q : Int) - 127) * (if j % 2 = 0 then 1 else -1))) ∧
      (∀ j, w1.fft_pointer ≤ j → j < 2 → 1 ≤ n →
        ∃ I Q : Nat, (pairs [[128, 127], [129, 127]].flatten)[(n - 1) * 2 + j]? = some (I, Q) ∧
          w1.data.inbuf[j]? =
            some (((I : Int) - 127) * (if j % 2 = 0 then 1 else -1),
                  ((Q : Int) - 127) * (if j % 2 = 0 then 1 else -1))) ∧
      (∀ j, w1.fft_pointer ≤ j → j < 2 → n = 0 →
        w1.data.inbuf[j]? = ([(0, 0), (0, 0)] : List (Int × Int))[j]?) :=
  sample_conversion (fun inbuf i => inbuf.getD i (0, 0)) [[128, 127], [129, 127]]
    (Thread.start (Datastore.Datastore 2 4 5 2 : Datastore Int)).toWorker
    (by decide) rfl rfl rfl rfl (by decide)

/-- C18. From a fresh worker with `N ≥ 1` and `repeats ≥ 0`, after any sequence of
even-length buffers carrying `P` byte pairs in total (`P` is half the total byte count),
`repeats_done = min(repeats, P / N)`, whatever the split of the pairs across buffers. -/
theorem transform_count (plan : List (Int × Int) → Nat → P × P)
    (bufs : List (List Nat)) (w : Worker P) (hN : 1 ≤ w.data.N) (hfp : w.fft_pointer = 0)
    (hrd : w.data.repeats_done = 0) (hpwr : w.data.pwr = List.replicate w.data.N 0)
    (hin : w.data.inbuf.length = w.data.N) (hrep : 0 ≤ w.data.repeats)
    (heven : ∀ b ∈ bufs, b.length % 2 = 0) :
    ∃ (w1 : Worker P) (logs : List (List Nat)),
      fft_buffers plan bufs w = .ok (w1, logs) ∧
      w1.data.repeats_done =
        min w.data.repeats ((bufs.flatten.length / 2 / w.data.N : Nat) : Int) := by
  have h0 := fresh_tracks plan (pairs bufs.flatten) w hN hfp hrd hpwr hin
  obtain ⟨n, ht, hall, hle⟩ := fresh_feed plan (pairs bufs.flatten) w hN hfp hrd hpwr hin hrep
  have hN1 := (feed_N plan (pairs bufs.flatten) w).1
  have hfpN := ht.wf.fp_lt
  have hins := ht.inside
  rw [hN1] at hfpN hins
  rw [pairs_length] at hall hins
  refine ⟨_, _, fft_buffers_eq plan bufs w h0.wf heven, ?_⟩
  rw [ht.rd_eq] at hall hle ⊢
  by_cases hlt : (n : Int) < w.data.repeats
  · have hq : bufs.flatten.length / 2 / w.data.N = n := by
      apply Nat.div_eq_of_lt_le
      · have := hall hlt
        omega
      · have := hall hlt
        rw [Nat.succ_mul]
        omega
    rw [hq, min_eq_right (Int.le_of_lt hlt)]
  · have heq : (n : Int) = w.data.repeats := by omega
    have hq : n ≤ bufs.flatten.length / 2 / w.data.N :=
      (Nat.le_div_iff_mul_le (by omega)).mpr (by omega)
    rw [← heq, min_eq_left (by exact_mod_cast hq)]

/-- Witness for C18: `N = 3`, five pairs in two buffers, `repeats = 5`: one transform. -/
theorem transform_count_witness :
    ∃ (w1 : Worker Int) (logs : List (List Nat)),
      fft_buffers (fun inbuf i => inbuf.getD i (0, 0))
          [[128, 127, 129, 127], [130, 127, 131, 127, 132, 127]]
          (Thread.start (Datastore.Datastore 3 4 5 2)).toWorker = .ok (w1, logs) ∧
      w1.data.repeats_done =
        min (Thread.start (Datastore.Datastore 3 4 5 2 : Datastore Int)).toWorker.data.repeats
          (([[128, 127, 129, 127], [130, 127, 131, 127, 132, 127]].flatten.length / 2 /
            (Thread.start (Datastore.Datastore 3 4 5 2 : Datastore Int)).toWorker.data.N : Nat) :
              Int) :=
  transform_count _ [[128, 127, 129, 127], [130, 127, 131, 127, 132, 127]] _
    (by decide) rfl rfl rfl rfl (by decide) (by decide)

/-- C15 as stated fails: with `N = 1` and `repeats = 1` the worker takes a buffer of three
bytes without any error, converts its first pair (bytes 0 and 1), counts the transform and
drops the trailing byte unread. -/
theorem odd_buffer_converted_without_error :
    (fft_drain (fun inbuf i => inbuf.getD i (0, 0)) [128, 127, 129]
        (Thread.start (Datastore.Datastore 1 3 1 1 : Datastore Int)).toWorker).map
        (fun dr => (dr.reads, dr.data.repeats_done, dr.data.inbuf)) =
      .ok ([0, 1], 1, [(1, 0)]) := by
  rfl

/-- The other way an odd buffer ends: with room for more samples (`N = 2`) the inner loop
goes on to the trailing byte and reads index 3 of a buffer of three bytes. -/
theorem odd_buffer_reads_past_end :
    fft_drain (fun inbuf i => inbuf.getD i (0, 0)) [128, 127, 129]
        (Thread.start (Datastore.Datastore 2 3 5 1 : Datastore Int)).toWorker =
      .error .outOfRange := by
  rfl

/-- C15, amended. The worker has no alignment check and raises no error of its own.  For a
well-formed worker and a buffer of odd byte count: if draining the buffer without its
trailing byte ends with `repeats_done` not below `repeats`, draining the whole buffer
ends in the same way, with the same state and the same bytes read, all of them before
the trailing byte. -/
theorem odd_buffer_without_alignment_check (plan : List (Int × Int) → Nat → P × P)
    (buffer : List Nat) (w : Worker P) (dr : Drain P) (hwf : w.WF)
    (hodd : buffer.length % 2 = 1) (hdr : fft_drain plan buffer.dropLast w = .ok dr)
    (hdone : ¬ dr.data.repeats_done < dr.data.repeats) :
    fft_drain plan buffer w = .ok dr ∧ ∀ i ∈ dr.reads, i + 1 < buffer.length := by
  have hlen : buffer.dropLast.length % 2 = 0 := by
    rw [List.length_dropLast]
    omega
  rw [fft_drain_eq plan _ w hwf hlen, pairs_dropLast buffer hodd] at hdr
  cases hdr
  refine ⟨?_, ?_⟩
  · rw [fft_drain_odd plan buffer w hwf hodd, if_neg hdone]
  · intro i hi
    have h1 := consumed_le plan (pairs buffer) w
    rw [pairs_length] at h1
    have h2 : i < 2 * consumed plan w (pairs buffer) := List.mem_range.mp hi
    omega

/-- Witness for C15: `N = 1`, `repeats = 1`, a buffer of three bytes. -/
theorem odd_buffer_without_alignment_check_witness :
    fft_drain (fun inbuf i => inbuf.getD i (0, 0)) [128, 127, 129]
        (Thread.start (Datastore.Datastore 1 3 1 1 : Datastore Int)).toWorker =
      .ok { data := { N := 1, buffers := 1, repeats := 1, repeats_done := 1,
                      queue_histogram := [0, 0], pwr := [1],
                      empty_buffers := [⟨0, [0, 0, 0]⟩], occupied_buffers := [],
                      acquisition_finished := false,
                      inbuf := [(1, 0)], outbuf := [(1, 0)] }
            fft_pointer := 0, buffer_pointer := 2, reads := [0, 1] } ∧
      ∀ i ∈ ([0, 1] : List Nat), i + 1 < [128, 127, 129].length :=
  odd_buffer_without_alignment_check _ [128, 127, 129] _ _ ⟨by decide, by decide, by decide⟩
    (by decide) (by rfl) (by decide)

/-- C19. For a well-formed worker (`fft_pointer < N`, workspaces of length `N`) and a buffer
of even byte count, the drain with checked indexing returns a result, so no read of the
buffer and no write of a workspace was out of range: every index read is inside the
buffer, `buffer_pointer` ends within the buffer, and the worker is well-formed again
(`fft_pointer < N`) when it goes back to waiting. -/
theorem index_safety (plan : List (Int × Int) → Nat → P × P) (buffer : List Nat) (w : Worker P)
    (hwf : w.WF) (heven : buffer.length % 2 = 0) :
    ∃ dr : Drain P, fft_drain plan buffer w = .ok dr ∧
      dr.toWorker.WF ∧
      dr.buffer_pointer ≤ buffer.length ∧
      ∀ i ∈ dr.reads, i < buffer.length := by
  have h1 := consumed_le plan (pairs buffer) w
  rw [pairs_length] at h1
  refine ⟨_, fft_drain_eq plan buffer w hwf heven, feed_WF plan _ w hwf, ?_, ?_⟩
  · show 2 * consumed plan w (pairs buffer) ≤ buffer.length
    omega
  · intro i hi
    have h2 : i < 2 * consumed plan w (pairs buffer) := List.mem_range.mp hi
    omega

/-- Witness for C19: `N = 3`, a buffer of four pairs. -/
theorem index_safety_witness :
    ∃ dr : Drain Int,
      fft_drain (fun inbuf i => inbuf.getD i (0, 0)) [128, 127, 129, 127, 130, 127, 131, 127]
          (Thread.start (Datastore.Datastore 3 8 5 1)).toWorker = .ok dr ∧
      dr.toWorker.WF ∧
      dr.buffer_pointer ≤ [128, 127, 129, 127, 130, 127, 131, 127].length ∧
      ∀ i ∈ dr.reads, i < [128, 127, 129, 127, 130, 127, 131, 127].length :=
  index_safety _ [128, 127, 129, 127, 130, 127, 131, 127] _
    ⟨by decide, by decide, by decide⟩ (by decide)

/-- C17. Over an ordered number type: in every state the worker reaches from a constructed
datastore (after construction, after each of its steps, whatever other threads do to the
queues and the flag) `pwr` has length `N` and every accumulator is non-negative; and a
worker step keeps the length of `pwr` and lets no accumulator decrease, so `pwr` is
neither resized nor reset. -/
theorem pwr_length_and_growth {Q : Type} [LinearOrderedRing Q]
    (plan : List (Int × Int) → Nat → Q × Q) (N buf_length : Nat) (repeats : Int)
    (buffers : Nat) (t : Thread Q) (hr : WorkerReach plan N buf_length repeats buffers t) :
    t.data.N = N ∧ t.data.pwr.length = N ∧ (∀ x ∈ t.data.pwr, 0 ≤ x) ∧
      ∀ t1, fft_step plan t = .ok t1 →
        t1.data.pwr.length = t.data.pwr.length ∧
        ∀ (i : Nat) (x y : Q), t.data.pwr[i]? = some x → t1.data.pwr[i]? = some y → x ≤ y := by
  have key : t.data.N = N ∧ t.data.pwr.length = N ∧ (∀ x ∈ t.data.pwr, 0 ≤ x) := by
    induction hr with
    | start =>
      refine ⟨rfl, by simp [Thread.start, Datastore.Datastore], ?_⟩
      intro x hx
      simp only [Thread.start, Datastore.Datastore] at hx
      rw [(List.mem_replicate.mp hx).2]
    | step _ hs ih =>
      have h := fft_step_le plan _ _ hs
      exact ⟨h.1.trans ih.1, h.2.1.symm.trans ih.2.1, pwrLe_nonneg h.2 ih.2.2⟩
    | shared _ _ _ _ ih => exact ih
  refine ⟨key.1, key.2.1, key.2.2, fun t1 h => ?_⟩
  have h1 := fft_step_le plan t t1 h
  exact ⟨h1.2.1.symm, h1.2.2⟩

/-- Witness for C17: `N = 2`, after a first buffer was drained with one transform, which
left `pwr = [1, 4]`, and a second buffer was popped; the step that follows drains it with
a second transform, which adds to both accumulators. -/
theorem pwr_length_and_growth_witness :
    ∃ t : Thread Int,
      t =
        ({ data :=
             { N := 2, buffers := 2, repeats := 3, repeats_done := 1,
               queue_histogram := [0, 0, 0], pwr := [1, 4],
               empty_buffers := [⟨0, [128, 127, 129, 127]⟩], occupied_buffers := [],
               acquisition_finished := false, inbuf := [(1, 0), (-2, 0)],
               outbuf := [(1, 0), (-2, 0)] },
           fft_pointer := 0, phase := .draining ⟨1, [130, 127, 127, 130]⟩,
           drained := [⟨0, [128, 127, 129, 127]⟩] } : Thread Int) ∧
      t.data.N = 2 ∧ t.data.pwr.length = 2 ∧ (∀ x ∈ t.data.pwr, 0 ≤ x) ∧
      ∀ t1, fft_step (fun inbuf i => inbuf.getD i (0, 0)) t = .ok t1 →
        t1.data.pwr.length = t.data.pwr.length ∧
        ∀ (i : Nat) (x y : Int), t.data.pwr[i]? = some x → t1.data.pwr[i]? = some y → x ≤ y := by
  have h := pwr_length_and_growth (fun inbuf i => inbuf.getD i (0, 0)) 2 4 3 2
        ({ data :=
             { N := 2, buffers := 2, repeats := 3, repeats_done := 1,
               queue_histogram := [0, 0, 0], pwr := [1, 4],
               empty_buffers := [⟨0, [128, 127, 129, 127]⟩], occupied_buffers := [],
               acquisition_finished := false, inbuf := [(1, 0), (-2, 0)],
               outbuf := [(1, 0), (-2, 0)] },
           fft_pointer := 0, phase := .draining ⟨1, [130, 127, 127, 130]⟩,
           drained := [⟨0, [128, 127, 129, 127]⟩] } : Thread Int)
    (WorkerReach.step
      (WorkerReach.shared [⟨0, [128, 127, 129, 127]⟩] [⟨1, [130, 127, 127, 130]⟩] false
        (WorkerReach.step
          (WorkerReach.step
            (WorkerReach.step
              (WorkerReach.shared [⟨1, [0, 0, 0, 0]⟩] [⟨0, [128, 127, 129, 127]⟩] false
                WorkerReach.start)
              rfl)
            rfl)
          rfl))
      rfl)
  exact ⟨_, rfl, h⟩

/-- C12. With the exact forward transform (any twiddle factor), from a fresh worker with
`N ≥ 1` and `repeats ≥ 0`: if every byte of every even-length buffer is 127, then after the
buffers `repeats_done = min(repeats, P / N)` for the `P` pairs received and every `pwr[i]`
is 0, the transform of the all-zero block being zero. -/
theorem zero_signal_zero_power (ω : ℂ) (bufs : List (List Nat)) (w : Worker ℝ)
    (hN : 1 ≤ w.data.N) (hfp : w.fft_pointer = 0) (hrd : w.data.repeats_done = 0)
    (hpwr : w.data.pwr = List.replicate w.data.N 0) (hin : w.data.inbuf.length = w.data.N)
    (hrep : 0 ≤ w.data.repeats) (heven : ∀ b ∈ bufs, b.length % 2 = 0)
    (h127 : ∀ b ∈ bufs, ∀ x ∈ b, x = 127) :
    ∃ (w1 : Worker ℝ) (logs : List (List Nat)),
      fft_buffers (fftw_forward ω) bufs w = .ok (w1, logs) ∧
      w1.data.repeats_done =
        min w.data.repeats ((bufs.flatten.length / 2 / w.data.N : Nat) : Int) ∧
      w1.data.pwr = List.replicate w.data.N 0 := by
  have h0 := fresh_tracks (fftw_forward ω) (pairs bufs.flatten) w hN hfp hrd hpwr hin
  obtain ⟨n, ht, hn⟩ := fresh_feed_count (fftw_forward ω) (pairs bufs.flatten) w hN hfp hrd
    hpwr hin hrep
  have hN1 := (feed_N (fftw_forward ω) (pairs bufs.flatten) w).1
  have hS : ∀ s ∈ pairs bufs.flatten, s = (127, 127) := by
    intro s hs
    have hm := pairs_mem _ s hs
    obtain ⟨b1, hb1, hx1⟩ := List.mem_flatten.mp hm.1
    obtain ⟨b2, hb2, hx2⟩ := List.mem_flatten.mp hm.2
    exact Prod.ext (h127 b1 hb1 _ hx1) (h127 b2 hb2 _ hx2)
  refine ⟨_, _, fft_buffers_eq (fftw_forward ω) bufs w h0.wf heven, ?_, ?_⟩
  · rw [ht.rd_eq, hn, pairs_length]
  · rw [List.eq_replicate_iff]
    refine ⟨by rw [ht.wf.pwr_len, hN1], ?_⟩
    intro x hx
    obtain ⟨i, hi⟩ := List.mem_iff_getElem?.mp hx
    have hlt : i < w.data.N := by
      have := (List.getElem?_eq_some_iff.mp hi).1
      rw [ht.wf.pwr_len, hN1] at this
      exact this
    have hp := ht.pwr_eq i (by rw [hN1]; exact hlt)
    rw [hi, hN1] at hp
    rw [Option.some.inj hp]
    apply powerSum_zero
    intro k
    rw [block_zero _ _ k hS, fftw_forward_zero]
    simp [norm]

/-- Witness for C12, scenario A: `N = 4`, `buffers = 2`, `buf_length = 8`, `repeats = 1`, one
buffer of eight bytes 127: `repeats_done = 1` and `pwr = [0, 0, 0, 0]`. -/
theorem zero_signal_zero_power_witness :
    ∃ (w1 : Worker ℝ) (logs : List (List Nat)),
      fft_buffers (fftw_forward (Complex.exp (-(2 * Real.pi * Complex.I) / (4 : ℕ))))
          [[127, 127, 127, 127, 127, 127, 127, 127]]
          (Thread.start (Datastore.Datastore 4 8 1 2)).toWorker = .ok (w1, logs) ∧
      w1.data.repeats_done = 1 ∧
      w1.data.pwr = [0, 0, 0, 0] :=
  zero_signal_zero_power _ [[127, 127, 127, 127, 127, 127, 127, 127]] _
    (by decide) rfl rfl rfl rfl (by decide) (by decide) (by decide)

end Claims

end RtlPowerFftw
